import Mathlib

/-!
Verification of the `adif-rs` codec (src/src/data.rs, src/src/parser.rs).

Shallow embedding conventions:

* A Rust `&str`/`String` is modelled as a `List Nat` of Unicode code points
  (`Chars`); `str` converts a Lean string literal.  All inputs exercised by
  the theorems below are ASCII, where this model is exact.
* Rust `f64` payloads (`AdifType::Number`) are modelled as exact rationals.
  No theorem below depends on floating-point rounding: the round-trip claim
  excludes numbers, and the tag-shape theorem is insensitive to the rendering.
* Rust panics (`unwrap`, `expect`) are modelled as `none` of an `Option`
  result: `none` means the Rust code aborts the process, it is *not* an
  error return (the Rust signatures return bare values, not `Result`).
* `usize` is modelled as 64 bits wide (`USIZE_MAX = 2 ^ 64 - 1`, the
  targets the crate is built for): the tag-length conversion
  `cap[2].parse::<usize>().expect(..)` aborts on a digit run whose value
  exceeds it, which `parse_line_to_tokens` models as `none`.
* Functions that recurse on a shrinking suffix of the input carry an explicit
  fuel argument so that every definition stays structurally recursive and
  kernel-computable; the public wrapper passes `length + 1` fuel, which is
  always sufficient because every step consumes at least one character.
-/

/-- Code-point strings: the model of Rust `str`. -/
abbrev Chars := List Nat

/-- Convert a Lean string literal into the code-point model. -/
def str (s : String) : Chars := s.data.map Char.toNat

/-- ASCII class `[A-Za-z_]` used for tag keys by the token pattern. -/
def isKeyCh (c : Nat) : Bool :=
  (65 ≤ c && c ≤ 90) || (97 ≤ c && c ≤ 122) || c == 95

/-- ASCII class `[A-Za-z]` used for the type indicator. -/
def isLetterCh (c : Nat) : Bool :=
  (65 ≤ c && c ≤ 90) || (97 ≤ c && c ≤ 122)

/-- ASCII decimal digits, the `\d` class of the token pattern. -/
def isDigitCh (c : Nat) : Bool := 48 ≤ c && c ≤ 57

/-- Rust `char::to_ascii_uppercase` / `str::to_uppercase` on ASCII input. -/
def upCh (c : Nat) : Nat := if 97 ≤ c && c ≤ 122 then c - 32 else c

/-- The Unicode `White_Space` class, as trimmed by Rust `str::trim_end`:
tab through carriage return, space, next line, no-break space, ogham space
mark, the en-quad..hair-space range, the line and paragraph separators,
narrow no-break space, medium mathematical space, ideographic space. -/
def isWsCh (c : Nat) : Bool :=
  (9 ≤ c && c ≤ 13) || c == 32 || c == 133 || c == 160 || c == 5760 ||
  (8192 ≤ c && c ≤ 8202) || c == 8232 || c == 8233 || c == 8239 ||
  c == 8287 || c == 12288

/-- Rust `str::trim_end`: drop trailing whitespace. -/
def trimEnd (l : Chars) : Chars := (l.reverse.dropWhile isWsCh).reverse

/-- Decimal value of a run of ASCII digit code points: the number a
captured digit run denotes.  `str::parse::<usize>` returns exactly this
value when it is at most `usize::MAX` and fails (panicking through the
`expect` in `parse_line_to_tokens`) otherwise; the range check lives in
`parse_line_to_tokens`. -/
def natOfDigits (l : Chars) : Nat := l.foldl (fun a d => a * 10 + (d - 48)) 0

/-- Fuelled decimal rendering of a positive natural, most significant first. -/
def natDigitsF : Nat → Nat → Chars
  | 0, _ => []
  | f + 1, n => if n = 0 then [] else natDigitsF f (n / 10) ++ [48 + n % 10]

/-- Rust `Display` for unsigned integers. -/
def natToStr (n : Nat) : Chars := if n = 0 then [48] else natDigitsF (n + 1) n

/-- Rust `Display` for signed integers. -/
def intToStr (i : Int) : Chars :=
  if i < 0 then 45 :: natToStr i.natAbs else natToStr i.toNat

/-- Rust `format!("{:02}", n)`: zero-pad to two digits. -/
def pad2 (n : Nat) : Chars := if n < 10 then 48 :: natToStr n else natToStr n

/-- Rust `format!("{:04}", n)` as used by chrono `%Y` for common years. -/
def pad4 (n : Nat) : Chars :=
  if n < 10 then 48 :: 48 :: 48 :: natToStr n
  else if n < 100 then 48 :: 48 :: natToStr n
  else if n < 1000 then 48 :: natToStr n
  else natToStr n

/-- UTF-8 byte count of one code point (Rust `char::len_utf8`). -/
def utf8SizeCh (c : Nat) : Nat :=
  if c < 128 then 1 else if c < 2048 then 2 else if c < 65536 then 3 else 4

/-- UTF-8 byte length of a string (Rust `str::len`). -/
def utf8Len (l : Chars) : Nat := (l.map utf8SizeCh).sum

/-- A raw token captured by `TOKEN_RE`
`(?:<([A-Za-z_]+):(\d+)(?::([A-Za-z]))?>([^<]*))` (parser.rs line 7). -/
structure Token where
  key : Chars
  len : Nat
  ty : Option Nat
  value : Chars
  deriving DecidableEq, Repr

/-- One leftmost-match attempt of `TOKEN_RE` at the head of the input.
Returns the captured token and the unconsumed suffix.  Mirrors the regex:
key run `[A-Za-z_]+`, `:`, digit run `\d+`, optional `:` + single letter,
`>`, value `[^<]*` (greedy); key and type are uppercased and the value is
`trim_end`ed exactly as `parse_line_to_tokens` does (parser.rs 17-31). -/
def tryMatch : Chars → Option (Token × Chars)
  | c :: rest =>
    if c = 60 then
      let key := rest.takeWhile isKeyCh
      let r1 := rest.dropWhile isKeyCh
      if key.isEmpty then none else
      match r1 with
      | 58 :: r2 =>
        let len := r2.takeWhile isDigitCh
        let r3 := r2.dropWhile isDigitCh
        if len.isEmpty then none else
        match r3 with
        | 58 :: t :: 62 :: r4 =>
          if isLetterCh t then
            some (⟨key.map upCh, natOfDigits len, some (upCh t),
                   trimEnd (r4.takeWhile (fun c => c != 60))⟩,
                  r4.dropWhile (fun c => c != 60))
          else none
        | 62 :: r4 =>
          some (⟨key.map upCh, natOfDigits len, none,
                 trimEnd (r4.takeWhile (fun c => c != 60))⟩,
                r4.dropWhile (fun c => c != 60))
        | _ => none
      | _ => none
    else none
  | [] => none

/-- Fuelled scan of `captures_iter`: try a match at every position, emit
tokens left to right, resume after each match. -/
def tokenizeF : Nat → Chars → List Token
  | 0, _ => []
  | _ + 1, [] => []
  | f + 1, c :: cs =>
    match tryMatch (c :: cs) with
    | some (t, r) => t :: tokenizeF f r
    | none => tokenizeF f cs

/-- The scan `TOKEN_RE.captures_iter(line)` together with the infallible
field conversions of the closure in `parse_line_to_tokens` (parser.rs
21-28): key and type-indicator uppercasing and `trim_end` on the value.
The captured length digits are recorded by their numeric value in `len`
(the digit run is nonempty and all-decimal, so its value determines the
outcome of `str::parse` exactly). -/
def tokenize (l : Chars) : List Token := tokenizeF (l.length + 1) l

/-- `usize::MAX` on the 64-bit targets the crate is built for: the range
bound of `cap[2].parse::<usize>()`. -/
def USIZE_MAX : Nat := 2 ^ 64 - 1

/-- `parse_line_to_tokens` (parser.rs 17-31).  The per-capture length
conversion `cap[2].parse::<usize>().expect("Length is not an integer")`
(parser.rs 23) aborts the process when the digit run's value exceeds
`usize::MAX`; that panic is modelled as `none`. -/
def parse_line_to_tokens (l : Chars) : Option (List Token) :=
  if (tokenize l).all (fun t => t.len ≤ USIZE_MAX) = true then some (tokenize l)
  else none

/-- A proleptic-Gregorian calendar date, the model of `chrono::NaiveDate`
(data.rs uses `Date<Utc>` wrapping a `NaiveDate`). -/
structure NDate where
  year : Int
  month : Nat
  day : Nat
  deriving DecidableEq, Repr

/-- A time of day, the model of `chrono::NaiveTime` (the sub-second field is
dropped: ADIF times carry whole seconds only). -/
structure NTime where
  hour : Nat
  minute : Nat
  second : Nat
  deriving DecidableEq, Repr

/-- Gregorian leap-year rule, as implemented by chrono. -/
def isLeapYear (y : Int) : Bool :=
  (y % 4 == 0 && y % 100 != 0) || y % 400 == 0

/-- Days in a month of the proleptic Gregorian calendar. -/
def daysInMonth (y : Int) (m : Nat) : Nat :=
  if m = 2 then (if isLeapYear y then 29 else 28)
  else if m = 4 || m = 6 || m = 9 || m = 11 then 30
  else 31

/-- Calendar validity, as enforced by `NaiveDate` construction. -/
def validDate (y : Int) (m d : Nat) : Bool :=
  1 ≤ m && m ≤ 12 && 1 ≤ d && d ≤ daysInMonth y m

/-- `NaiveDate::parse_from_str(s, "%Y%m%d")` for the wire format: exactly
eight ASCII digits `YYYYMMDD` naming a valid calendar date. -/
def dateParse (s : Chars) : Option NDate :=
  if s.length = 8 && s.all isDigitCh then
    let y := natOfDigits (s.take 4)
    let m := natOfDigits ((s.drop 4).take 2)
    let d := natOfDigits (s.drop 6)
    if validDate (Int.ofNat y) m d then some ⟨Int.ofNat y, m, d⟩ else none
  else none

/-- `NaiveTime::parse_from_str(s, "%H%M%S")` for the wire format: exactly
six ASCII digits `HHMMSS` naming a valid time of day. -/
def timeParse (s : Chars) : Option NTime :=
  if s.length = 6 && s.all isDigitCh then
    let h := natOfDigits (s.take 2)
    let m := natOfDigits ((s.drop 2).take 2)
    let sec := natOfDigits (s.drop 4)
    if h ≤ 23 && m ≤ 59 && sec ≤ 59 then some ⟨h, m, sec⟩ else none
  else none

/-- `lexical::parse::<f64>` on the decimal grammar
`[sign] digits [. digits] [(e|E) [sign] digits]`, modelled exactly over the
rationals.  Float rounding and the special values (NaN, infinities) are not
modelled; no theorem below depends on a `Number` payload. -/
def lexicalParse (s : Chars) : Option ℚ :=
  let (sgn, s1) := match s with
    | 45 :: r => ((-1 : ℚ), r)
    | 43 :: r => ((1 : ℚ), r)
    | r => ((1 : ℚ), r)
  let ip := s1.takeWhile isDigitCh
  let s2 := s1.dropWhile isDigitCh
  let (fp, s3) := match s2 with
    | 46 :: r => (r.takeWhile isDigitCh, r.dropWhile isDigitCh)
    | r => ([], r)
  if ip.isEmpty && fp.isEmpty then none else
  let mant : ℚ := (natOfDigits ip : ℚ) +
    (natOfDigits fp : ℚ) / ((10 : ℚ) ^ fp.length)
  match s3 with
  | [] => some (sgn * mant)
  | e :: r =>
    if e = 101 || e = 69 then
      let (esgn, r1) : Int × Chars := match r with
        | 45 :: r2 => (-1, r2)
        | 43 :: r2 => (1, r2)
        | r2 => (1, r2)
      let ed := r1.takeWhile isDigitCh
      if ed.isEmpty || !(r1.dropWhile isDigitCh).isEmpty then none
      else some (sgn * mant * (10 : ℚ) ^ (esgn * natOfDigits ed))
    else none

/-- Supported datatypes for representing ADIF data (`AdifType`, data.rs
22-45).  The `f64` payload of `Number` is modelled as an exact rational. -/
inductive AdifType where
  | Str : Chars → AdifType
  | Boolean : Bool → AdifType
  | Number : ℚ → AdifType
  | Date : NDate → AdifType
  | Time : NTime → AdifType
  deriving DecidableEq, Repr

/-- Decode one token into a typed value (the `match` inside
`create_token_map`, parser.rs 41-58).  `none` models a Rust panic: the
source uses `expect`/`unwrap` on the `N`, `D` and `T` arms, so malformed
text aborts the whole process instead of returning an error. -/
def decodeToken (t : Token) : Option AdifType :=
  match t.ty with
  | some ty =>
    if ty = 66 then some (AdifType.Boolean (t.value.map upCh == str "Y"))
    else if ty = 78 then (lexicalParse t.value).map AdifType.Number
    else if ty = 68 then (dateParse t.value).map AdifType.Date
    else if ty = 84 then (timeParse t.value).map AdifType.Time
    else some (AdifType.Str t.value)
  | none => some (AdifType.Str t.value)

/-- `indexmap::IndexMap::insert`: replace the value in place if the key is
present, otherwise append the pair at the end. -/
def imInsert (m : List (Chars × AdifType)) (k : Chars) (v : AdifType) :
    List (Chars × AdifType) :=
  if (m.map Prod.fst).contains k then
    m.map (fun kv => if kv.1 = k then (kv.1, v) else kv)
  else m ++ [(k, v)]

/-- The token loop of `create_token_map` (parser.rs 33-62), threading the
map through `imInsert`; `none` propagates a decode panic. -/
def createTokenMapAux : List Token → List (Chars × AdifType) →
    Option (List (Chars × AdifType))
  | [], m => some m
  | t :: ts, m =>
    match decodeToken t with
    | some v => createTokenMapAux ts (imInsert m t.key v)
    | none => none

/-- `create_token_map` (parser.rs 33-62). -/
def create_token_map (tokens : List Token) :
    Option (List (Chars × AdifType)) :=
  createTokenMapAux tokens []

/-- `AdifRecord` (data.rs 128): an insertion-ordered key/value map. -/
structure AdifRecord where
  fields : List (Chars × AdifType)
  deriving DecidableEq, Repr

/-- `AdifHeader` (data.rs 182): an insertion-ordered key/value map. -/
structure AdifHeader where
  fields : List (Chars × AdifType)
  deriving DecidableEq, Repr

/-- `AdifFile` (data.rs 246-249). -/
structure AdifFile where
  header : AdifHeader
  body : List AdifRecord
  deriving DecidableEq, Repr

/-- Fuelled Rust `str::replace`: rewrite every non-overlapping occurrence of
`pat`, scanning left to right. -/
def replaceAllF (pat rep : Chars) : Nat → Chars → Chars
  | 0, l => l
  | _ + 1, [] => []
  | f + 1, c :: cs =>
    if pat.isPrefixOf (c :: cs) then rep ++ replaceAllF pat rep f ((c :: cs).drop pat.length)
    else c :: replaceAllF pat rep f cs

/-- Rust `str::replace` (total wrapper; `pat` is never empty here). -/
def replaceAll (pat rep l : Chars) : Chars :=
  if pat.isEmpty then l else replaceAllF pat rep (l.length + 1) l

/-- Fuelled Rust `str::split` on a string pattern: the list of segments
between non-overlapping occurrences of `sep`, keeping empty segments. -/
def splitOnSeqF (sep : Chars) : Nat → Chars → List Chars
  | 0, l => [l]
  | _ + 1, [] => [[]]
  | f + 1, c :: cs =>
    if sep.isPrefixOf (c :: cs) then [] :: splitOnSeqF sep f ((c :: cs).drop sep.length)
    else
      match splitOnSeqF sep f cs with
      | s :: ss => (c :: s) :: ss
      | [] => [[c]]

/-- Rust `str::split` on a string pattern (total wrapper). -/
def splitOnSeq (sep l : Chars) : List Chars :=
  if sep.isEmpty then [l] else splitOnSeqF sep (l.length + 1) l

/-- The terminator normalisation of `parse_adif` (parser.rs 75): replace the
exact lowercase `<eoh>` and `<eor>` by their uppercase forms. -/
def normalizeData (data : Chars) : Chars :=
  replaceAll (str "<eor>") (str "<EOR>")
    (replaceAll (str "<eoh>") (str "<EOH>") data)

/-- Short-circuiting map over segments (the body `.map(...).collect()` of
`parse_adif`, with `none` propagating a decode panic). -/
def collectOption (f : Chars → Option AdifRecord) : List Chars → Option (List AdifRecord)
  | [] => some []
  | s :: ss =>
    match f s with
    | none => none
    | some r =>
      match collectOption f ss with
      | none => none
      | some rs => some (r :: rs)

/-- Decoding of the two chosen raw segments in `parse_adif` (parser.rs
83-100): header from `headerRaw`, records from splitting `bodyRaw` on
`<EOR>`.  `none` propagates a decode panic. -/
def parseSegments (headerRaw bodyRaw : Chars) : Option AdifFile :=
  match parse_line_to_tokens headerRaw with
  | none => none
  | some hts =>
    match create_token_map hts with
    | none => none
    | some hm =>
      match collectOption
          (fun seg => (parse_line_to_tokens seg).bind
            (fun ts => (create_token_map ts).map AdifRecord.mk))
          (splitOnSeq (str "<EOR>") bodyRaw) with
      | none => none
      | some recs => some ⟨⟨hm⟩, recs⟩

/-- `parse_adif` (parser.rs 73-104): normalise terminators, split on
`<EOH>`, take the *first* part as the header segment and the *last* part as
the body segment, then decode both. -/
def parse_adif (data : Chars) : Option AdifFile :=
  parseSegments ((splitOnSeq (str "<EOH>") (normalizeData data)).headD [])
    ((splitOnSeq (str "<EOH>") (normalizeData data)).getLastD [])

instance {ε α : Type} [DecidableEq ε] [DecidableEq α] :
    DecidableEq (Except ε α) := fun x y =>
  match x, y with
  | Except.ok a, Except.ok b =>
    if h : a = b then isTrue (by rw [h]) else isFalse (by simp [h])
  | Except.error a, Except.error b =>
    if h : a = b then isTrue (by rw [h]) else isFalse (by simp [h])
  | Except.ok _, Except.error _ => isFalse (by simp)
  | Except.error _, Except.ok _ => isFalse (by simp)

/-- `SerializeError` (data.rs 9-13). -/
structure SerializeError where
  message : Chars
  offender : Chars
  deriving DecidableEq, Repr

/-- `AdifType::get_data_type_indicator` (data.rs 49-57): `B`, `N`, `D`,
`T`, or absent for strings. -/
def AdifType.get_data_type_indicator : AdifType → Option Nat
  | AdifType.Str _ => none
  | AdifType.Boolean _ => some 66
  | AdifType.Number _ => some 78
  | AdifType.Date _ => some 68
  | AdifType.Time _ => some 84

/-- Fuelled multiplicity of a prime factor. -/
def factorCount (p : Nat) : Nat → Nat → Nat
  | 0, _ => 0
  | f + 1, n => if 2 ≤ n && n % p = 0 then 1 + factorCount p f (n / p) else 0

/-- Rendering of a rational `Number` payload, standing in for Rust's
`f64::to_string` (minimal decimal, no trailing `.0`).  Exact for every
value with a finite decimal expansion; only the digit classes of the
output matter to any theorem below. -/
def numToString (q : ℚ) : Chars :=
  let sgn : Chars := if q < 0 then [45] else []
  let n := q.num.natAbs
  let d := q.den
  if d = 1 then sgn ++ natToStr n
  else
    let k := (factorCount 2 d d).max (factorCount 5 d d)
    let scaled := n * (10 ^ k) / d
    sgn ++ natToStr (scaled / 10 ^ k) ++ [46] ++
      (natToStr (scaled % 10 ^ k + 10 ^ k)).drop 1

/-- chrono's `Display` for `NaiveDate` (`%Y-%m-%d`), used only for the
`offender` diagnostic of a date error. -/
def dateDisplay (d : NDate) : Chars :=
  (if d.year < 0 then [45] else []) ++ pad4 d.year.natAbs ++ [45] ++
    pad2 d.month ++ [45] ++ pad2 d.day

/-- The key normalisation of tag assembly (data.rs 109):
`key_name.to_uppercase().replace(' ', "_")`. -/
def normalizeKey (k : Chars) : Chars :=
  (k.map upCh).map (fun c => if c = 32 then 95 else c)

/-- The rendered value text of `AdifType::serialize` (data.rs 62-103),
before tag assembly; `Except.error` models the early `return Err(...)`. -/
def AdifType.valueText : AdifType → Except SerializeError Chars
  | AdifType.Str val =>
    if val.contains 10 then
      Except.error ⟨str "String cannot contain linebreaks", val⟩
    else if !val.all (fun c => c ≤ 127) then
      Except.error ⟨str "String must be ASCII", val⟩
    else Except.ok val
  | AdifType.Boolean val => Except.ok (if val then [89] else [78])
  | AdifType.Number val => Except.ok (numToString val)
  | AdifType.Date val =>
    if val.year < 1930 then
      Except.error ⟨str "Date must be >= 1930", dateDisplay val⟩
    else Except.ok (intToStr val.year ++ pad2 val.month ++ pad2 val.day)
  | AdifType.Time val =>
    Except.ok (pad2 val.hour ++ pad2 val.minute ++ pad2 val.second)

/-- `AdifType::serialize` (data.rs 60-117): render the value text, then
assemble `<KEY:len[:T]>value` where `len` is the value's byte length. -/
def AdifType.serialize (self : AdifType) (key_name : Chars) :
    Except SerializeError Chars :=
  match self.valueText with
  | Except.error e => Except.error e
  | Except.ok value =>
    Except.ok ([60] ++ normalizeKey key_name ++ [58] ++
      natToStr (utf8Len value) ++
      (match self.get_data_type_indicator with
       | some id => [58, id]
       | none => []) ++ [62] ++ value)

/-- Short-circuiting serialization of all fields in container order (the
`collect::<Result<Vec<String>, _>>()` of data.rs 133-137/193-197: stop at
the first field whose value fails to encode). -/
def collectTags : List (Chars × AdifType) → Except SerializeError (List Chars)
  | [] => Except.ok []
  | kv :: rest =>
    match kv.2.serialize kv.1 with
    | Except.error e => Except.error e
    | Except.ok s =>
      match collectTags rest with
      | Except.error e => Except.error e
      | Except.ok ss => Except.ok (s :: ss)

/-- `AdifRecord::serialize` (data.rs 132-141): concatenate the fields'
tags in container order and append the literal lowercase `<eor>`. -/
def AdifRecord.serialize (r : AdifRecord) : Except SerializeError Chars :=
  match collectTags r.fields with
  | Except.error e => Except.error e
  | Except.ok parts => Except.ok (parts.flatten ++ str "<eor>")

/-- Rust `Vec::join` on strings. -/
def joinSep (sep : Chars) : List Chars → Chars
  | [] => []
  | [x] => x
  | x :: y :: t => x ++ sep ++ joinSep sep (y :: t)

/-- The generated banner of `AdifHeader::serialize` (data.rs 188-191).
The instant it shows is `chrono::Utc::now()` in the source — a hidden
global read with no parameter; the embedding necessarily surfaces that
ambient instant as the explicit arguments `nowD`/`nowT`. -/
def headerBanner (nowD : NDate) (nowT : NTime) : Chars :=
  str "Generated " ++ pad4 nowD.year.toNat ++ [45] ++ pad2 nowD.month ++
    [45] ++ pad2 nowD.day ++ [32] ++ pad2 nowT.hour ++ [58] ++
    pad2 nowT.minute ++ [58] ++ pad2 nowT.second ++ str " (UTC)\n\n"

/-- `AdifHeader::serialize` (data.rs 186-205) at ambient instant
`nowD`/`nowT`: banner, tags joined by newline, newline, uppercase `<EOH>`. -/
def AdifHeader.serializeAt (h : AdifHeader) (nowD : NDate) (nowT : NTime) :
    Except SerializeError Chars :=
  match collectTags h.fields with
  | Except.error e => Except.error e
  | Except.ok parts =>
    Except.ok (headerBanner nowD nowT ++ joinSep [10] parts ++ [10] ++ str "<EOH>")

/-- Short-circuiting serialization of the body records (data.rs 257-261). -/
def collectRecords : List AdifRecord → Except SerializeError (List Chars)
  | [] => Except.ok []
  | r :: rest =>
    match r.serialize with
    | Except.error e => Except.error e
    | Except.ok s =>
      match collectRecords rest with
      | Except.error e => Except.error e
      | Except.ok ss => Except.ok (s :: ss)

/-- `AdifFile::serialize` (data.rs 253-263) at ambient instant
`nowD`/`nowT`: header, newline, records joined by newline. -/
def AdifFile.serializeAt (f : AdifFile) (nowD : NDate) (nowT : NTime) :
    Except SerializeError Chars :=
  match f.header.serializeAt nowD nowT with
  | Except.error e => Except.error e
  | Except.ok h =>
    match collectRecords f.body with
    | Except.error e => Except.error e
    | Except.ok recs => Except.ok (h ++ [10] ++ joinSep [10] recs)

/-- Substring test: `pat` occurs somewhere in the string. -/
def hasSub (pat : Chars) : Chars → Bool
  | [] => pat.isEmpty
  | c :: t => pat.isPrefixOf (c :: t) || hasSub pat t

/-- The value text of a serialisable value, as a total function (the
`Except.ok` payload of `AdifType.valueText` on its success path). -/
def valTextP : AdifType → Chars
  | AdifType.Str s => s
  | AdifType.Boolean b => if b then [89] else [78]
  | AdifType.Number q => numToString q
  | AdifType.Date d => intToStr d.year ++ pad2 d.month ++ pad2 d.day
  | AdifType.Time t => pad2 t.hour ++ pad2 t.minute ++ pad2 t.second

/-- The tag text `<KEY:len[:T]>value` produced for key `k` and value `v`. -/
def tagChars (k : Chars) (v : AdifType) : Chars :=
  [60] ++ k ++ [58] ++ natToStr (utf8Len (valTextP v)) ++
    (match v.get_data_type_indicator with
     | some id => [58, id]
     | none => []) ++ [62] ++ valTextP v

/-- The token the tokenizer recovers from the tag of `(k, v)`. -/
def mkToken (k : Chars) (v : AdifType) : Token :=
  ⟨k, natOfDigits (natToStr (utf8Len (valTextP v))),
   v.get_data_type_indicator, valTextP v⟩

/-- Concatenated tag texts of a field list, in container order. -/
def tagStream (fs : List (Chars × AdifType)) : Chars :=
  (fs.map (fun kv => tagChars kv.1 kv.2)).flatten

/-- Keys already in canonical wire form: nonempty, uppercase letters and
underscores only. -/
def goodKey (k : Chars) : Bool :=
  !k.isEmpty && k.all (fun c => (65 ≤ c && c ≤ 90) || c == 95)

/-- String payloads that survive the encode checks and are recovered
verbatim by the tokenizer: ASCII, no `\n`, no `<`, no trailing
whitespace, and of representable byte length (a Rust `String` never
exceeds `usize::MAX` bytes, so the length digits written on encode
always parse back into a `usize`). -/
def goodStr (s : Chars) : Bool :=
  s.all (fun c => c ≤ 127 && c != 10 && c != 60) && trimEnd s == s &&
    utf8Len s ≤ USIZE_MAX

/-- Values covered by the round-trip property: strings as in `goodStr`,
any boolean, dates with 1930 ≤ year ≤ 9999, in-range times.  `Number` is
excluded (floating-point text is not exactly invertible). -/
def goodVal : AdifType → Bool
  | AdifType.Str s => goodStr s
  | AdifType.Boolean _ => true
  | AdifType.Number _ => false
  | AdifType.Date d =>
    validDate d.year d.month d.day && 1930 ≤ d.year && d.year ≤ 9999
  | AdifType.Time t => t.hour ≤ 23 && t.minute ≤ 59 && t.second ≤ 59

/-- All fields of a container are round-trip safe. -/
def goodFields (fs : List (Chars × AdifType)) : Bool :=
  fs.all (fun kv => goodKey kv.1 && goodVal kv.2)

/-- Scanning invariant of serialized tag text: every `<` opens a tag,
i.e. is followed by a nonempty uppercase key run and then `:`.  State 0:
outside a key; state 1: right after `<`; state 2: inside a key run. -/
def ltOkSt : Chars → Nat → Bool
  | [], st => st == 0
  | c :: rest, 0 => if c == 60 then ltOkSt rest 1 else ltOkSt rest 0
  | c :: rest, 1 =>
    if (65 ≤ c && c ≤ 90) || c == 95 then ltOkSt rest 2 else false
  | c :: rest, 2 =>
    if (65 ≤ c && c ≤ 90) || c == 95 then ltOkSt rest 2
    else if c == 58 then ltOkSt rest 0 else false
  | _ :: _, _ + 3 => false

/-- First occurrence of each key, in scan order, skipping keys already
seen: the key order `IndexMap` ends up with. -/
def newKeys (seen : List Chars) : List Chars → List Chars
  | [] => []
  | k :: ks =>
    if seen.contains k then newKeys seen ks else k :: newKeys (k :: seen) ks

/-- Association lookup in the ordered-map model. -/
def lookupA (m : List (Chars × AdifType)) (k : Chars) : Option AdifType :=
  match m.find? (fun kv => kv.1 == k) with
  | some kv => some kv.2
  | none => none

/-! ### List helpers -/

theorem takeWhile_all_append (p : Nat → Bool) (xs ys : Chars)
    (h : ∀ c ∈ xs, p c = true) :
    (xs ++ ys).takeWhile p = xs ++ ys.takeWhile p := by
  induction xs with
  | nil => simp
  | cons a l ih =>
    simp only [List.cons_append, List.takeWhile_cons, h a (by simp)]
    simp [ih (fun c hc => h c (by simp [hc]))]

theorem dropWhile_all_append (p : Nat → Bool) (xs ys : Chars)
    (h : ∀ c ∈ xs, p c = true) :
    (xs ++ ys).dropWhile p = ys.dropWhile p := by
  induction xs with
  | nil => simp
  | cons a l ih =>
    simp only [List.cons_append, List.dropWhile_cons, h a (by simp)]
    simp [ih (fun c hc => h c (by simp [hc]))]

theorem length_dropWhile_le (p : Nat → Bool) (l : Chars) :
    (l.dropWhile p).length ≤ l.length := by
  induction l with
  | nil => simp
  | cons a t ih =>
    simp only [List.dropWhile_cons]
    split
    · exact Nat.le_succ_of_le ih
    · simp

theorem isPrefixOf_eq_append {pat l : Chars} (h : pat.isPrefixOf l = true) :
    l = pat ++ l.drop pat.length := by
  induction pat generalizing l with
  | nil => simp
  | cons a as ih =>
    cases l with
    | nil => simp [List.isPrefixOf] at h
    | cons b bs =>
      simp only [List.isPrefixOf, Bool.and_eq_true, beq_iff_eq] at h
      obtain ⟨rfl, h2⟩ := h
      simpa using ih h2

/-! ### Fuel irrelevance and step equations -/

theorem tryMatch_length {l : Chars} {t : Token} {r : Chars}
    (h : tryMatch l = some (t, r)) : r.length < l.length := by
  match l with
  | [] => simp [tryMatch] at h
  | c :: rest =>
    simp only [tryMatch] at h
    split at h
    case isFalse => simp at h
    case isTrue =>
      split at h
      case isTrue => simp at h
      case isFalse =>
        split at h
        case h_1 r1 r2 heq =>
          split at h
          case isTrue => simp at h
          case isFalse =>
            have hd1 : (rest.dropWhile isKeyCh).length ≤ rest.length :=
              length_dropWhile_le _ _
            have hd2 : r2.length < rest.length := by
              rw [heq] at hd1; simp at hd1; omega
            split at h
            case h_1 r3 t0 r4 heq2 =>
              have hd3 : (r2.dropWhile isDigitCh).length ≤ r2.length :=
                length_dropWhile_le _ _
              have hd4 : r4.length + 3 ≤ r2.length := by
                rw [heq2] at hd3; simp at hd3; omega
              split at h
              case isTrue =>
                injection h with h
                injection h with h1 h2
                subst h2
                have : (r4.dropWhile (fun c => c != 60)).length ≤ r4.length :=
                  length_dropWhile_le _ _
                simp only [List.length_cons]
                omega
              case isFalse => simp at h
            case h_2 r3 r4 heq2 =>
              have hd3 : (r2.dropWhile isDigitCh).length ≤ r2.length :=
                length_dropWhile_le _ _
              have hd4 : r4.length + 1 ≤ r2.length := by
                rw [heq2] at hd3; simp at hd3; omega
              injection h with h
              injection h with h1 h2
              subst h2
              have : (r4.dropWhile (fun c => c != 60)).length ≤ r4.length :=
                length_dropWhile_le _ _
              simp only [List.length_cons]
              omega
            case h_3 => simp at h
        case h_2 => simp at h

theorem tokenizeF_irrel :
    ∀ f₁ : Nat, ∀ l : Chars, ∀ f₂ : Nat, l.length < f₁ → l.length < f₂ →
      tokenizeF f₁ l = tokenizeF f₂ l := by
  intro f₁
  induction f₁ with
  | zero => intro l f₂ h1 _; omega
  | succ f ih =>
    intro l f₂ h1 h2
    match f₂ with
    | 0 => omega
    | f₂ + 1 =>
      cases l with
      | nil => rfl
      | cons c cs =>
        simp only [tokenizeF]
        cases htm : tryMatch (c :: cs) with
        | none =>
          exact ih cs f₂ (by simp at h1; omega) (by simp at h2; omega)
        | some tr =>
          obtain ⟨t, r⟩ := tr
          have hl := tryMatch_length htm
          dsimp only
          rw [ih r f₂ (by simp at h1 hl; omega) (by simp at h2 hl; omega)]

theorem tokenize_nil : tokenize [] = [] := rfl

theorem tokenize_cons (c : Nat) (cs : Chars) :
    tokenize (c :: cs) =
      match tryMatch (c :: cs) with
      | some (t, r) => t :: tokenize r
      | none => tokenize cs := by
  show tokenizeF ((c :: cs).length + 1) (c :: cs) = _
  simp only [List.length_cons, tokenizeF]
  cases htm : tryMatch (c :: cs) with
  | none => rfl
  | some tr =>
    obtain ⟨t, r⟩ := tr
    have hl := tryMatch_length htm
    simp only [List.length_cons] at hl
    dsimp only
    rw [tokenizeF_irrel (cs.length + 1) r (r.length + 1) (by omega) (by omega)]
    rfl

theorem parse_line_eq_some (l : Chars)
    (h : (tokenize l).all (fun t => t.len ≤ USIZE_MAX) = true) :
    parse_line_to_tokens l = some (tokenize l) := by
  unfold parse_line_to_tokens
  rw [if_pos h]

theorem parse_line_eq_none (l : Chars)
    (h : (tokenize l).all (fun t => t.len ≤ USIZE_MAX) = false) :
    parse_line_to_tokens l = none := by
  unfold parse_line_to_tokens
  rw [if_neg (by rw [h]; exact Bool.false_ne_true)]

theorem replaceAllF_irrel (pat rep : Chars) (hp : pat ≠ []) :
    ∀ f₁ : Nat, ∀ l : Chars, ∀ f₂ : Nat, l.length < f₁ → l.length < f₂ →
      replaceAllF pat rep f₁ l = replaceAllF pat rep f₂ l := by
  intro f₁
  induction f₁ with
  | zero => intro l f₂ h1 _; omega
  | succ f ih =>
    intro l f₂ h1 h2
    match f₂ with
    | 0 => omega
    | f₂ + 1 =>
      cases l with
      | nil => rfl
      | cons c cs =>
        simp only [replaceAllF]
        split
        · have hplen : 1 ≤ pat.length := by
            cases pat with
            | nil => exact absurd rfl hp
            | cons a b => simp
          rw [ih (((c :: cs).drop pat.length)) f₂
            (by simp [List.length_drop] at h1 ⊢; omega)
            (by simp [List.length_drop] at h2 ⊢; omega)]
        · rw [ih cs f₂ (by simp at h1; omega) (by simp at h2; omega)]

theorem replaceAll_nil (pat rep : Chars) : replaceAll pat rep [] = [] := by
  unfold replaceAll
  split <;> rfl

theorem replaceAll_cons (pat rep : Chars) (hp : pat ≠ []) (c : Nat) (cs : Chars) :
    replaceAll pat rep (c :: cs) =
      if pat.isPrefixOf (c :: cs) then
        rep ++ replaceAll pat rep ((c :: cs).drop pat.length)
      else c :: replaceAll pat rep cs := by
  have hpe : pat.isEmpty = false := by cases pat with
    | nil => exact absurd rfl hp
    | cons a b => rfl
  have hplen : 1 ≤ pat.length := by cases pat with
    | nil => exact absurd rfl hp
    | cons a b => simp
  unfold replaceAll
  simp only [hpe, Bool.false_eq_true, if_false]
  simp only [List.length_cons, replaceAllF]
  split
  · rw [replaceAllF_irrel pat rep hp (cs.length + 1)
      ((c :: cs).drop pat.length) (((c :: cs).drop pat.length).length + 1)
      (by simp only [List.length_drop, List.length_cons]; omega)
      (by omega)]
  · rw [replaceAllF_irrel pat rep hp (cs.length + 1) cs (cs.length + 1)
      (by omega) (by omega)]

theorem splitOnSeqF_irrel (sep : Chars) (hp : sep ≠ []) :
    ∀ f₁ : Nat, ∀ l : Chars, ∀ f₂ : Nat, l.length < f₁ → l.length < f₂ →
      splitOnSeqF sep f₁ l = splitOnSeqF sep f₂ l := by
  intro f₁
  induction f₁ with
  | zero => intro l f₂ h1 _; omega
  | succ f ih =>
    intro l f₂ h1 h2
    match f₂ with
    | 0 => omega
    | f₂ + 1 =>
      cases l with
      | nil => rfl
      | cons c cs =>
        simp only [splitOnSeqF]
        split
        · have hplen : 1 ≤ sep.length := by
            cases sep with
            | nil => exact absurd rfl hp
            | cons a b => simp
          rw [ih (((c :: cs).drop sep.length)) f₂
            (by simp [List.length_drop] at h1 ⊢; omega)
            (by simp [List.length_drop] at h2 ⊢; omega)]
        · rw [ih cs f₂ (by simp at h1; omega) (by simp at h2; omega)]

theorem splitOnSeq_nil (sep : Chars) (hp : sep ≠ []) :
    splitOnSeq sep [] = [[]] := by
  have hpe : sep.isEmpty = false := by cases sep with
    | nil => exact absurd rfl hp
    | cons a b => rfl
  unfold splitOnSeq
  simp [hpe, splitOnSeqF]

theorem splitOnSeq_cons (sep : Chars) (hp : sep ≠ []) (c : Nat) (cs : Chars) :
    splitOnSeq sep (c :: cs) =
      if sep.isPrefixOf (c :: cs) then
        [] :: splitOnSeq sep ((c :: cs).drop sep.length)
      else
        match splitOnSeq sep cs with
        | s :: ss => (c :: s) :: ss
        | [] => [[c]] := by
  have hpe : sep.isEmpty = false := by cases sep with
    | nil => exact absurd rfl hp
    | cons a b => rfl
  have hplen : 1 ≤ sep.length := by cases sep with
    | nil => exact absurd rfl hp
    | cons a b => simp
  unfold splitOnSeq
  simp only [hpe, Bool.false_eq_true, if_false]
  simp only [List.length_cons, splitOnSeqF]
  split
  · rw [splitOnSeqF_irrel sep hp (cs.length + 1)
      ((c :: cs).drop sep.length) (((c :: cs).drop sep.length).length + 1)
      (by simp only [List.length_drop, List.length_cons]; omega)
      (by omega)]
  · rw [splitOnSeqF_irrel sep hp (cs.length + 1) cs (cs.length + 1)
      (by omega) (by omega)]

theorem splitOnSeqF_ne_nil (sep : Chars) :
    ∀ f : Nat, ∀ l : Chars, splitOnSeqF sep f l ≠ [] := by
  intro f
  induction f with
  | zero => intro l; simp [splitOnSeqF]
  | succ f ih =>
    intro l
    cases l with
    | nil => simp [splitOnSeqF]
    | cons c cs =>
      simp only [splitOnSeqF]
      split
      · simp
      · cases h : splitOnSeqF sep f cs with
        | nil => simp
        | cons s ss => simp

theorem splitOnSeq_ne_nil (sep l : Chars) : splitOnSeq sep l ≠ [] := by
  unfold splitOnSeq
  split
  · simp
  · exact splitOnSeqF_ne_nil sep _ l

/-! ### Occurrence-free splitting -/

theorem hasSub_false_splitOnSeq {sep l : Chars} (hp : sep ≠ [])
    (h : hasSub sep l = false) : splitOnSeq sep l = [l] := by
  induction l with
  | nil => exact splitOnSeq_nil sep hp
  | cons c cs ih =>
    simp only [hasSub, Bool.or_eq_false_iff] at h
    rw [splitOnSeq_cons sep hp c cs, if_neg (by simp [h.1]), ih h.2]

/-- C2: on an input whose `D`-typed token carries malformed date text, the
decoder does not return a recoverable error: it aborts (the source calls
`.unwrap()` on `NaiveDate::parse_from_str`; `none` models that panic). -/
theorem adif_C2_malformed_date_aborts :
    parse_adif (str "<K:1:D>x") = none := by decide

/-- C5: the output of `AdifHeader::serialize` differs for the same header
at two ambient instants one second apart — the serialized text is a
function of a clock reading, and in the source that reading is
`chrono::Utc::now()`, a hidden global with no injectable parameter. -/
theorem adif_C5_clock_dependence :
    AdifHeader.serializeAt ⟨[]⟩ ⟨2020, 1, 2⟩ ⟨3, 4, 5⟩ ≠
      AdifHeader.serializeAt ⟨[]⟩ ⟨2020, 1, 2⟩ ⟨3, 4, 6⟩ := by decide

/-- C4 counterexample: the mixed-case header terminator `<EoH>` is not
normalized to `<EOH>` and is not a section boundary: both its fields end
up in the header, contrary to the claim that every case-variant is mapped
to canonical uppercase first. -/
theorem adif_C4_counterexample :
    normalizeData (str "<EoH>") = str "<EoH>" ∧
    str "<EoH>" ≠ str "<EOH>" ∧
    parse_adif (str "<A:1>x<EoH><B:1>y") =
      some ⟨⟨[(str "A", AdifType.Str (str "x")),
              (str "B", AdifType.Str (str "y"))]⟩,
            [⟨[(str "A", AdifType.Str (str "x")),
               (str "B", AdifType.Str (str "y"))]⟩]⟩ := by decide

/-- C4 (amended): only the exact lowercase terminators `<eoh>`/`<eor>` are
rewritten to their uppercase forms, so exactly the all-lowercase and
all-uppercase spellings act as section boundaries; other case-variants
are left untouched. -/
theorem adif_C4_terminator_normalization :
    normalizeData (str "<eoh>") = str "<EOH>" ∧
    normalizeData (str "<eor>") = str "<EOR>" ∧
    normalizeData (str "<EoR>") = str "<EoR>" ∧
    parse_adif (str "<A:1>x<eoh><B:1>y") =
      some ⟨⟨[(str "A", AdifType.Str (str "x"))]⟩,
            [⟨[(str "B", AdifType.Str (str "y"))]⟩]⟩ ∧
    parse_adif (str "<A:1>x<EOH><B:1>y") =
      some ⟨⟨[(str "A", AdifType.Str (str "x"))]⟩,
            [⟨[(str "B", AdifType.Str (str "y"))]⟩]⟩ := by decide

/-- C3 counterexample: with two header terminators, the text between the
first and second terminator (`<B:1>y`) is parsed into neither the header
nor the body — the body is decoded from the text after the *last*
terminator, contrary to the claim that it belongs to the body. -/
theorem adif_C3_counterexample :
    parse_adif (str "<A:1>x<EOH><B:1>y<EOH><C:1>z") =
      some ⟨⟨[(str "A", AdifType.Str (str "x"))]⟩,
            [⟨[(str "C", AdifType.Str (str "z"))]⟩]⟩ ∧
    (some ⟨⟨[(str "A", AdifType.Str (str "x"))]⟩,
           [⟨[(str "C", AdifType.Str (str "z"))]⟩]⟩ : Option AdifFile).all
      (fun f => f.body.all (fun r => r.fields.all (fun kv => kv.1 ≠ str "B"))) = true := by
  decide

/-- C3 (amended): the header is decoded from the text before the *first*
header terminator and the record sequence from the text after the *last*
one; middle segments are dropped.  Stated for a document whose normalized
text splits into exactly three parts. -/
theorem adif_C3_split_segments (data a b c : Chars)
    (h : splitOnSeq (str "<EOH>") (normalizeData data) = [a, b, c]) :
    parse_adif data = parseSegments a c := by
  unfold parse_adif
  rw [h]
  rfl

theorem adif_C3_split_segments_witness :
    splitOnSeq (str "<EOH>") (normalizeData (str "<A:1>x<EOH><B:1>y<EOH><C:1>z")) =
      [str "<A:1>x", str "<B:1>y", str "<C:1>z"] ∧
    parse_adif (str "<A:1>x<EOH><B:1>y<EOH><C:1>z") =
      parseSegments (str "<A:1>x") (str "<C:1>z") :=
  ⟨by decide,
   adif_C3_split_segments (str "<A:1>x<EOH><B:1>y<EOH><C:1>z")
     (str "<A:1>x") (str "<B:1>y") (str "<C:1>z") (by decide)⟩

/-- C9: when the normalized document contains no header terminator at
all, both the header and the record sequence are decoded from the entire
document text. -/
theorem adif_C9_no_terminator (data : Chars)
    (h : hasSub (str "<EOH>") (normalizeData data) = false) :
    parse_adif data =
      parseSegments (normalizeData data) (normalizeData data) := by
  unfold parse_adif
  rw [hasSub_false_splitOnSeq (by decide) h]
  rfl

theorem adif_C9_no_terminator_witness :
    hasSub (str "<EOH>") (normalizeData (str "<A:1>x<EOR><B:1>y")) = false ∧
    parse_adif (str "<A:1>x<EOR><B:1>y") =
      parseSegments (str "<A:1>x<EOR><B:1>y") (str "<A:1>x<EOR><B:1>y") :=
  ⟨by decide,
   by
     have h := adif_C9_no_terminator (str "<A:1>x<EOR><B:1>y") (by decide)
     rwa [show normalizeData (str "<A:1>x<EOR><B:1>y") = str "<A:1>x<EOR><B:1>y" from by decide] at h⟩

/-- C6 counterexample: a string containing a carriage return (but no
`\n`) serializes successfully — the code checks only `'\n'`, so no
`ContainsLinebreak` error is raised for `\r`, contrary to the claim. -/
theorem adif_C6_counterexample :
    (AdifType.Str (str "a\rb")).serialize (str "K") =
      Except.ok (str "<K:3>a\rb") := by decide

/-- C6 (amended): serializing `Str s` fails with the `ContainsLinebreak`
error exactly when `s` contains `'\n'` (checked first; `'\r'` alone is
accepted), otherwise fails with the `NonAscii` error exactly when `s` has
a non-ASCII character, and otherwise succeeds with value text `s`
verbatim. -/
theorem adif_C6_str_serialize_spec (s key : Chars) :
    (AdifType.Str s).serialize key =
      if s.contains 10 then
        Except.error ⟨str "String cannot contain linebreaks", s⟩
      else if !s.all (fun c => c ≤ 127) then
        Except.error ⟨str "String must be ASCII", s⟩
      else
        Except.ok ([60] ++ normalizeKey key ++ [58] ++
          natToStr (utf8Len s) ++ [62] ++ s) := by
  by_cases h1 : 10 ∈ s
  · simp [AdifType.serialize, AdifType.valueText, h1]
  · by_cases h2 : ∃ x ∈ s, 127 < x
    · simp [AdifType.serialize, AdifType.valueText, h1, h2]
    · simp [AdifType.serialize, AdifType.valueText,
        AdifType.get_data_type_indicator, h1, h2]

/-- C1 counterexample: the record `{K: Str "a "}` — ASCII and
newline-free — serializes fine, but parsing the result trims the trailing
space: no container of the parse output equals the original. -/
theorem adif_C1_counterexample :
    (AdifRecord.mk [(str "K", AdifType.Str (str "a "))]).serialize =
      Except.ok (str "<K:2>a <eor>") ∧
    parse_adif (str "<K:2>a <eor>") =
      some ⟨⟨[(str "K", AdifType.Str (str "a"))]⟩,
            [⟨[(str "K", AdifType.Str (str "a"))]⟩, ⟨[]⟩]⟩ ∧
    str "a" ≠ str "a " := by decide

/-- C8 counterexample: a tag value is *not* cut at the end of the line:
tokenizing `<A:1>x\ny` yields the value `x\ny`, which crosses the line
break (the regex class `[^<]*` matches `\n`). -/
theorem adif_C8_counterexample :
    parse_line_to_tokens (str "<A:1>x\ny") =
      some [⟨str "A", 1, none, str "x\ny"⟩] ∧
    str "x\ny" ≠ str "x" := by decide

/-- C7: every successfully produced tag is
`<` + normalized key + `:` + length + optional `:`-indicator + `>` + value,
where the length field is the decimal rendering of the exact UTF-8 byte
length of the value text and the key is uppercased with spaces replaced by
underscores. -/
theorem adif_C7_tag_shape (v : AdifType) (key out : Chars)
    (h : v.serialize key = Except.ok out) :
    ∃ val, out = [60] ++ normalizeKey key ++ [58] ++
      natToStr (utf8Len val) ++
      (match v.get_data_type_indicator with
       | some id => [58, id]
       | none => []) ++ [62] ++ val := by
  unfold AdifType.serialize at h
  cases hv : v.valueText with
  | error e => rw [hv] at h; simp at h
  | ok value =>
    rw [hv] at h
    simp only [Except.ok.injEq] at h
    exact ⟨value, h.symm⟩

theorem adif_C7_tag_shape_witness :
    (AdifType.Str (str "hi")).serialize (str "k") = Except.ok (str "<K:2>hi") ∧
    (∃ val, str "<K:2>hi" = [60] ++ normalizeKey (str "k") ++ [58] ++
      natToStr (utf8Len val) ++
      (match (AdifType.Str (str "hi")).get_data_type_indicator with
       | some id => [58, id]
       | none => []) ++ [62] ++ val) :=
  ⟨by decide,
   adif_C7_tag_shape (AdifType.Str (str "hi")) (str "k") (str "<K:2>hi") (by decide)⟩

/-! ### The tokenizer on well-formed tag text -/

theorem tryMatch_tag_none (k ds tail : Chars)
    (hk1 : k ≠ []) (hk2 : ∀ c ∈ k, isKeyCh c = true)
    (hd1 : ds ≠ []) (hd2 : ∀ c ∈ ds, isDigitCh c = true) :
    tryMatch (60 :: (k ++ 58 :: (ds ++ 62 :: tail))) =
      some (⟨k.map upCh, natOfDigits ds, none,
             trimEnd (tail.takeWhile (fun c => c != 60))⟩,
            tail.dropWhile (fun c => c != 60)) := by
  have hke : k.isEmpty = false := by
    cases k with
    | nil => exact absurd rfl hk1
    | cons a b => rfl
  have hde : ds.isEmpty = false := by
    cases ds with
    | nil => exact absurd rfl hd1
    | cons a b => rfl
  have htk : (k ++ 58 :: (ds ++ 62 :: tail)).takeWhile isKeyCh = k := by
    rw [takeWhile_all_append isKeyCh k _ hk2]
    simp [List.takeWhile_cons, isKeyCh]
  have hdk : (k ++ 58 :: (ds ++ 62 :: tail)).dropWhile isKeyCh =
      58 :: (ds ++ 62 :: tail) := by
    rw [dropWhile_all_append isKeyCh k _ hk2]
    simp [List.dropWhile_cons, isKeyCh]
  have htd : (ds ++ 62 :: tail).takeWhile isDigitCh = ds := by
    rw [takeWhile_all_append isDigitCh ds _ hd2]
    simp [List.takeWhile_cons, isDigitCh]
  have hdd : (ds ++ 62 :: tail).dropWhile isDigitCh = 62 :: tail := by
    rw [dropWhile_all_append isDigitCh ds _ hd2]
    simp [List.dropWhile_cons, isDigitCh]
  simp only [tryMatch, htk, hdk, htd, hdd, hke, hde]
  simp

theorem tryMatch_tag_some (k ds tail : Chars) (t : Nat)
    (hk1 : k ≠ []) (hk2 : ∀ c ∈ k, isKeyCh c = true)
    (hd1 : ds ≠ []) (hd2 : ∀ c ∈ ds, isDigitCh c = true)
    (ht : isLetterCh t = true) :
    tryMatch (60 :: (k ++ 58 :: (ds ++ 58 :: t :: 62 :: tail))) =
      some (⟨k.map upCh, natOfDigits ds, some (upCh t),
             trimEnd (tail.takeWhile (fun c => c != 60))⟩,
            tail.dropWhile (fun c => c != 60)) := by
  have hke : k.isEmpty = false := by
    cases k with
    | nil => exact absurd rfl hk1
    | cons a b => rfl
  have hde : ds.isEmpty = false := by
    cases ds with
    | nil => exact absurd rfl hd1
    | cons a b => rfl
  have htk : (k ++ 58 :: (ds ++ 58 :: t :: 62 :: tail)).takeWhile isKeyCh = k := by
    rw [takeWhile_all_append isKeyCh k _ hk2]
    simp [List.takeWhile_cons, isKeyCh]
  have hdk : (k ++ 58 :: (ds ++ 58 :: t :: 62 :: tail)).dropWhile isKeyCh =
      58 :: (ds ++ 58 :: t :: 62 :: tail) := by
    rw [dropWhile_all_append isKeyCh k _ hk2]
    simp [List.dropWhile_cons, isKeyCh]
  have htd : (ds ++ 58 :: t :: 62 :: tail).takeWhile isDigitCh = ds := by
    rw [takeWhile_all_append isDigitCh ds _ hd2]
    simp [List.takeWhile_cons, isDigitCh]
  have hdd : (ds ++ 58 :: t :: 62 :: tail).dropWhile isDigitCh =
      58 :: t :: 62 :: tail := by
    rw [dropWhile_all_append isDigitCh ds _ hd2]
    simp [List.dropWhile_cons, isDigitCh]
  simp only [tryMatch, htk, hdk, htd, hdd, hke, hde, ht]
  simp [ht]

/-- C8 (amended): a tag's declared length digits are captured and parsed
into the token's `len` field, and their only use is the `usize` range
check of that parse — a digit run whose value exceeds `usize::MAX`
aborts the process (`none`); the length never bounds how much text is
consumed: the value is all text after `>` up to the next `<` or the end
of the tokenized segment (which may cross line breaks), with trailing
whitespace trimmed, and scanning resumes at that `<` — all independently
of whether the digits `ds` match the value's length.  Both the untyped
and the typed tag forms are covered. -/
theorem adif_C8_value_delimiting (k ds tail : Chars) (t : Nat)
    (hk1 : k ≠ []) (hk2 : ∀ c ∈ k, isKeyCh c = true)
    (hd1 : ds ≠ []) (hd2 : ∀ c ∈ ds, isDigitCh c = true)
    (ht : isLetterCh t = true) :
    tokenize (60 :: (k ++ 58 :: (ds ++ 62 :: tail))) =
      ⟨k.map upCh, natOfDigits ds, none,
       trimEnd (tail.takeWhile (fun c => c != 60))⟩ ::
        tokenize (tail.dropWhile (fun c => c != 60)) ∧
    tokenize (60 :: (k ++ 58 :: (ds ++ 58 :: t :: 62 :: tail))) =
      ⟨k.map upCh, natOfDigits ds, some (upCh t),
       trimEnd (tail.takeWhile (fun c => c != 60))⟩ ::
        tokenize (tail.dropWhile (fun c => c != 60)) ∧
    (USIZE_MAX < natOfDigits ds →
      parse_line_to_tokens (60 :: (k ++ 58 :: (ds ++ 62 :: tail))) = none ∧
      parse_line_to_tokens (60 :: (k ++ 58 :: (ds ++ 58 :: t :: 62 :: tail))) =
        none) ∧
    (natOfDigits ds ≤ USIZE_MAX →
      (tokenize (tail.dropWhile (fun c => c != 60))).all
        (fun tk => tk.len ≤ USIZE_MAX) = true →
      parse_line_to_tokens (60 :: (k ++ 58 :: (ds ++ 62 :: tail))) =
        some (⟨k.map upCh, natOfDigits ds, none,
               trimEnd (tail.takeWhile (fun c => c != 60))⟩ ::
              tokenize (tail.dropWhile (fun c => c != 60)))) := by
  have e1 : tokenize (60 :: (k ++ 58 :: (ds ++ 62 :: tail))) =
      ⟨k.map upCh, natOfDigits ds, none,
       trimEnd (tail.takeWhile (fun c => c != 60))⟩ ::
        tokenize (tail.dropWhile (fun c => c != 60)) := by
    rw [tokenize_cons, tryMatch_tag_none k ds tail hk1 hk2 hd1 hd2]
  have e2 : tokenize (60 :: (k ++ 58 :: (ds ++ 58 :: t :: 62 :: tail))) =
      ⟨k.map upCh, natOfDigits ds, some (upCh t),
       trimEnd (tail.takeWhile (fun c => c != 60))⟩ ::
        tokenize (tail.dropWhile (fun c => c != 60)) := by
    rw [tokenize_cons, tryMatch_tag_some k ds tail t hk1 hk2 hd1 hd2 ht]
  refine ⟨e1, e2, fun hgt => ?_, fun hle hrest => ?_⟩
  · have hf : decide (natOfDigits ds ≤ USIZE_MAX) = false :=
      decide_eq_false (by omega)
    constructor
    · apply parse_line_eq_none
      rw [e1]
      simp only [List.all_cons]
      rw [hf, Bool.false_and]
    · apply parse_line_eq_none
      rw [e2]
      simp only [List.all_cons]
      rw [hf, Bool.false_and]
  · have hall : (tokenize (60 :: (k ++ 58 :: (ds ++ 62 :: tail)))).all
        (fun tk => tk.len ≤ USIZE_MAX) = true := by
      rw [e1]
      simp only [List.all_cons]
      rw [decide_eq_true hle, Bool.true_and]
      exact hrest
    rw [parse_line_eq_some _ hall, e1]

theorem adif_C8_value_delimiting_witness :
    ((str "A" ≠ ([] : Chars)) ∧
     (str "99999999999999999999" ≠ ([] : Chars)) ∧
     isLetterCh 66 = true ∧
     USIZE_MAX < natOfDigits (str "99999999999999999999")) ∧
    tokenize (60 :: (str "A" ++ 58 ::
        (str "99999999999999999999" ++ 62 :: str "x"))) =
      ⟨(str "A").map upCh, natOfDigits (str "99999999999999999999"), none,
       trimEnd ((str "x").takeWhile (fun c => c != 60))⟩ ::
        tokenize ((str "x").dropWhile (fun c => c != 60)) ∧
    parse_line_to_tokens (60 :: (str "A" ++ 58 ::
        (str "99999999999999999999" ++ 62 :: str "x"))) = none := by
  refine ⟨⟨by decide, by decide, by decide, by decide⟩, ?_, ?_⟩
  · exact (adif_C8_value_delimiting (str "A") (str "99999999999999999999")
      (str "x") 66 (by decide) (by decide) (by decide) (by decide) (by decide)).1
  · exact ((adif_C8_value_delimiting (str "A") (str "99999999999999999999")
      (str "x") 66 (by decide) (by decide) (by decide) (by decide)
      (by decide)).2.2.1 (by decide)).1

/-! ### Key normalisation and map-insertion lemmas -/

theorem upCh_idem (c : Nat) : upCh (upCh c) = upCh c := by
  unfold upCh
  split
  case isTrue h =>
    simp only [Bool.and_eq_true, decide_eq_true_eq] at h
    rw [if_neg]
    simp only [Bool.and_eq_true, decide_eq_true_eq, not_and]
    omega
  case isFalse h => rfl

theorem tryMatch_key_upper {l : Chars} {t : Token} {r : Chars}
    (h : tryMatch l = some (t, r)) : t.key.map upCh = t.key := by
  match l with
  | [] => simp [tryMatch] at h
  | c :: rest =>
    simp only [tryMatch] at h
    split at h
    case isFalse => simp at h
    case isTrue =>
      split at h
      case isTrue => simp at h
      case isFalse =>
        split at h
        case h_1 r1 r2 heq =>
          split at h
          case isTrue => simp at h
          case isFalse =>
            split at h
            case h_1 r3 t0 r4 heq2 =>
              split at h
              case isTrue =>
                injection h with h
                injection h with h1 h2
                subst h1
                simp [List.map_map, Function.comp, upCh_idem]
              case isFalse => simp at h
            case h_2 r3 r4 heq2 =>
              injection h with h
              injection h with h1 h2
              subst h1
              simp [List.map_map, Function.comp, upCh_idem]
            case h_3 => simp at h
        case h_2 => simp at h

theorem tokenizeF_key_upper :
    ∀ f : Nat, ∀ l : Chars, ∀ t ∈ tokenizeF f l, t.key.map upCh = t.key := by
  intro f
  induction f with
  | zero => intro l t ht; simp [tokenizeF] at ht
  | succ f ih =>
    intro l t ht
    cases l with
    | nil => simp [tokenizeF] at ht
    | cons c cs =>
      simp only [tokenizeF] at ht
      cases htm : tryMatch (c :: cs) with
      | none => rw [htm] at ht; exact ih cs t ht
      | some tr =>
        obtain ⟨tok, r⟩ := tr
        rw [htm] at ht
        simp only [List.mem_cons] at ht
        cases ht with
        | inl he => subst he; exact tryMatch_key_upper htm
        | inr hm => exact ih r t hm

theorem tokens_key_upper (l : Chars) :
    ∀ t ∈ tokenize l, t.key.map upCh = t.key :=
  tokenizeF_key_upper (l.length + 1) l

theorem lookupA_nil (k : Chars) : lookupA [] k = none := rfl

theorem lookupA_cons (k0 : Chars) (v0 : AdifType)
    (m : List (Chars × AdifType)) (k : Chars) :
    lookupA ((k0, v0) :: m) k = if k0 = k then some v0 else lookupA m k := by
  by_cases h : k0 = k
  · subst h; simp [lookupA, List.find?]
  · simp [lookupA, List.find?, beq_eq_false_iff_ne.mpr h, h]

theorem lookupA_replace (m : List (Chars × AdifType)) (k : Chars)
    (v : AdifType) (k' : Chars) :
    lookupA (m.map fun kv => if kv.1 = k then (kv.1, v) else kv) k' =
      if k' = k then (lookupA m k).map (fun _ => v) else lookupA m k' := by
  induction m with
  | nil => simp [lookupA_nil]
  | cons kv m ih =>
    obtain ⟨k0, v0⟩ := kv
    simp only [List.map_cons]
    by_cases h0 : k0 = k <;> by_cases h' : k' = k <;> by_cases h'' : k0 = k' <;>
      simp_all [lookupA_cons]

theorem contains_lookupA (m : List (Chars × AdifType)) (k : Chars)
    (h : (m.map Prod.fst).contains k = true) : ∃ w, lookupA m k = some w := by
  induction m with
  | nil => simp at h
  | cons kv m ih =>
    obtain ⟨k0, v0⟩ := kv
    simp only [List.map_cons, List.contains_cons, Bool.or_eq_true,
      beq_iff_eq] at h
    rw [lookupA_cons]
    by_cases h0 : k0 = k
    · exact ⟨v0, by rw [if_pos h0]⟩
    · rw [if_neg h0]
      apply ih
      cases h with
      | inl he => exact absurd he.symm h0
      | inr hm => simpa using hm

theorem not_contains_lookupA (m : List (Chars × AdifType)) (k : Chars)
    (h : (m.map Prod.fst).contains k = false) : lookupA m k = none := by
  induction m with
  | nil => rfl
  | cons kv m ih =>
    obtain ⟨k0, v0⟩ := kv
    simp only [List.map_cons, List.contains_cons, Bool.or_eq_false_iff,
      beq_eq_false_iff_ne] at h
    rw [lookupA_cons, if_neg (fun hh => h.1 hh.symm), ih h.2]

theorem lookupA_append_single (m : List (Chars × AdifType)) (k : Chars)
    (v : AdifType) (k' : Chars) :
    lookupA (m ++ [(k, v)]) k' =
      match lookupA m k' with
      | some w => some w
      | none => if k = k' then some v else none := by
  induction m with
  | nil => simp [lookupA_nil, lookupA_cons]
  | cons kv m ih =>
    obtain ⟨k0, v0⟩ := kv
    simp only [List.cons_append, lookupA_cons, ih]
    by_cases h0 : k0 = k'
    · simp [h0]
    · rw [if_neg h0, if_neg h0]

theorem lookupA_imInsert (m : List (Chars × AdifType)) (k : Chars)
    (v : AdifType) (k' : Chars) :
    lookupA (imInsert m k v) k' = if k' = k then some v else lookupA m k' := by
  unfold imInsert
  split
  case isTrue h =>
    rw [lookupA_replace]
    by_cases h' : k' = k
    · subst h'
      obtain ⟨w, hw⟩ := contains_lookupA m k' h
      simp [hw]
    · simp [h']
  case isFalse h =>
    rw [lookupA_append_single]
    by_cases h' : k' = k
    · subst h'
      rw [not_contains_lookupA m k' (by simpa using h)]
    · rw [if_neg h']
      cases hm : lookupA m k' with
      | some w => rfl
      | none =>
        dsimp only
        rw [if_neg (fun hh => h' hh.symm)]

theorem map_fst_replace (m : List (Chars × AdifType)) (k : Chars) (v : AdifType) :
    (m.map fun kv => if kv.1 = k then (kv.1, v) else kv).map Prod.fst =
      m.map Prod.fst := by
  induction m with
  | nil => rfl
  | cons kv m ih =>
    obtain ⟨k0, v0⟩ := kv
    by_cases h : k0 = k <;> simp [h, ih]

theorem imInsert_keys (m : List (Chars × AdifType)) (k : Chars) (v : AdifType) :
    (imInsert m k v).map Prod.fst =
      if (m.map Prod.fst).contains k then m.map Prod.fst
      else m.map Prod.fst ++ [k] := by
  unfold imInsert
  split
  case isTrue h => exact map_fst_replace m k v
  case isFalse h => simp

theorem newKeys_congr (s1 s2 l : List Chars)
    (h : ∀ x, s1.contains x = s2.contains x) : newKeys s1 l = newKeys s2 l := by
  induction l generalizing s1 s2 with
  | nil => rfl
  | cons k ks ih =>
    simp only [newKeys, h k]
    split
    · exact ih s1 s2 h
    · rw [ih (k :: s1) (k :: s2) (fun x => by
        simp only [List.contains_cons, h x])]

theorem newKeys_fresh_nodup (l : List Chars) : ∀ seen,
    (∀ x ∈ newKeys seen l, seen.contains x = false) ∧
    (newKeys seen l).Nodup := by
  induction l with
  | nil => intro seen; simp [newKeys]
  | cons k ks ih =>
    intro seen
    simp only [newKeys]
    split
    case isTrue hc => exact ih seen
    case isFalse hc =>
      obtain ⟨ih1, ih2⟩ := ih (k :: seen)
      constructor
      · intro x hx
        rcases List.mem_cons.mp hx with rfl | hx'
        · simpa using hc
        · have hh := ih1 x hx'
          simp only [List.contains_cons, Bool.or_eq_false_iff] at hh
          exact hh.2
      · rw [List.nodup_cons]
        refine ⟨fun hk => ?_, ih2⟩
        have hh := ih1 k hk
        simp [List.contains_cons] at hh

theorem newKeys_sub (l : List Chars) : ∀ seen, ∀ x ∈ newKeys seen l, x ∈ l := by
  induction l with
  | nil => intro _ x hx; simp [newKeys] at hx
  | cons k ks ih =>
    intro seen x hx
    simp only [newKeys] at hx
    split at hx
    · exact List.mem_cons_of_mem _ (ih seen x hx)
    · rcases List.mem_cons.mp hx with rfl | hx'
      · exact List.mem_cons_self _ _
      · exact List.mem_cons_of_mem _ (ih (k :: seen) x hx')

theorem contains_append_single (s : List Chars) (k x : Chars) :
    (s ++ [k]).contains x = (k :: s).contains x := by
  induction s with
  | nil => rfl
  | cons a s ih =>
    simp only [List.cons_append, List.contains_cons, ih]
    rw [← Bool.or_assoc, Bool.or_comm (x == a) (x == k), Bool.or_assoc]

theorem ctm_keys : ∀ tokens : List Token, ∀ m₀ m,
    createTokenMapAux tokens m₀ = some m →
    m.map Prod.fst =
      m₀.map Prod.fst ++ newKeys (m₀.map Prod.fst) (tokens.map Token.key) := by
  intro tokens
  induction tokens with
  | nil =>
    intro m₀ m h
    simp only [createTokenMapAux, Option.some.injEq] at h
    subst h
    simp [newKeys]
  | cons t ts ih =>
    intro m₀ m h
    simp only [createTokenMapAux] at h
    cases hd : decodeToken t with
    | none => rw [hd] at h; simp at h
    | some v =>
      rw [hd] at h
      rw [ih _ _ h, imInsert_keys]
      simp only [List.map_cons, newKeys]
      by_cases hc : (m₀.map Prod.fst).contains t.key = true
      · rw [if_pos hc, if_pos hc]
      · rw [if_neg hc, if_neg hc]
        rw [newKeys_congr (m₀.map Prod.fst ++ [t.key]) (t.key :: m₀.map Prod.fst)
          _ (fun x => contains_append_single _ _ _)]
        simp

theorem ctm_lookup : ∀ tokens : List Token, ∀ m₀ m,
    createTokenMapAux tokens m₀ = some m → ∀ k,
    lookupA m k =
      match (tokens.filter (fun t => t.key == k)).getLast? with
      | some t => decodeToken t
      | none => lookupA m₀ k := by
  intro tokens
  induction tokens with
  | nil =>
    intro m₀ m h k
    simp only [createTokenMapAux, Option.some.injEq] at h
    subst h
    simp
  | cons t ts ih =>
    intro m₀ m h k
    simp only [createTokenMapAux] at h
    cases hd : decodeToken t with
    | none => rw [hd] at h; simp at h
    | some v =>
      rw [hd] at h
      rw [ih _ _ h k]
      rw [List.filter_cons]
      by_cases hk : t.key = k
      · rw [if_pos (by simp [hk])]
        cases hf : ts.filter (fun t' => t'.key == k) with
        | nil =>
          simp only [List.getLast?_nil, List.getLast?_singleton]
          rw [lookupA_imInsert, if_pos hk.symm, hd]
        | cons a l => rfl
      · rw [if_neg (by simp [hk])]
        cases hf : ts.filter (fun t' => t'.key == k) with
        | nil =>
          simp only [List.getLast?_nil]
          rw [lookupA_imInsert, if_neg (fun hh => hk hh.symm)]
        | cons a l =>
          cases hg : (a :: l).getLast? with
          | none => simp at hg
          | some b => rfl

/-- C10: when tokenizing a line succeeds (`parse_line_to_tokens = some ts`,
every captured length fitting in `usize`) and `create_token_map` succeeds
on its tokens, the resulting map has one entry per distinct key,
positioned at the key's first occurrence (`newKeys`), each key's value is
the decoded value of the last token with that key in scan order, and the
keys are uppercase and pairwise distinct even under case-insensitive
comparison. -/
theorem adif_C10_duplicate_keys (line : Chars) (ts : List Token)
    (m : List (Chars × AdifType))
    (hts : parse_line_to_tokens line = some ts)
    (h : create_token_map ts = some m) :
    m.map Prod.fst = newKeys [] (ts.map Token.key) ∧
    (∀ k, lookupA m k =
      match (ts.filter (fun t => t.key == k)).getLast? with
      | some t => decodeToken t
      | none => none) ∧
    (m.map Prod.fst).Nodup ∧
    (∀ k ∈ m.map Prod.fst, k.map upCh = k) ∧
    (m.map Prod.fst).Pairwise (fun a b => a.map upCh ≠ b.map upCh) := by
  have hts' : ts = tokenize line := by
    unfold parse_line_to_tokens at hts
    split at hts
    · exact (Option.some.inj hts).symm
    · exact absurd hts (by simp)
  subst hts'
  have h' : createTokenMapAux (tokenize line) [] = some m := h
  have hkeys := ctm_keys _ _ _ h'
  simp only [List.map_nil, List.nil_append] at hkeys
  have hnodup : (m.map Prod.fst).Nodup := by
    rw [hkeys]; exact (newKeys_fresh_nodup _ []).2
  have hupper : ∀ k ∈ m.map Prod.fst, k.map upCh = k := by
    intro k hk
    rw [hkeys] at hk
    have hk2 := newKeys_sub _ [] k hk
    obtain ⟨t, ht, rfl⟩ := List.mem_map.mp hk2
    exact tokens_key_upper line t ht
  refine ⟨hkeys, ?_, hnodup, hupper, ?_⟩
  · intro k
    have hl := ctm_lookup _ _ _ h' k
    rw [lookupA_nil] at hl
    exact hl
  · exact List.Pairwise.imp_of_mem
      (fun {a b} ha hb hne => by
        intro he
        exact hne (by rw [← hupper a ha, he, hupper b hb]))
      hnodup

theorem adif_C10_duplicate_keys_witness :
    parse_line_to_tokens (str "<a:1>x<A:1:B>Y") =
      some [⟨str "A", 1, none, str "x"⟩, ⟨str "A", 1, some 66, str "Y"⟩] ∧
    create_token_map [⟨str "A", 1, none, str "x"⟩,
        ⟨str "A", 1, some 66, str "Y"⟩] =
      some [(str "A", AdifType.Boolean true)] ∧
    [(str "A", AdifType.Boolean true)].map Prod.fst =
      newKeys [] ([⟨str "A", 1, none, str "x"⟩,
        (⟨str "A", 1, some 66, str "Y"⟩ : Token)].map Token.key) ∧
    lookupA [(str "A", AdifType.Boolean true)] (str "A") =
      (match ([⟨str "A", 1, none, str "x"⟩,
          (⟨str "A", 1, some 66, str "Y"⟩ : Token)].filter
          (fun t => t.key == str "A")).getLast? with
       | some t => decodeToken t
       | none => none) :=
  ⟨by decide, by decide,
   (adif_C10_duplicate_keys (str "<a:1>x<A:1:B>Y")
     [⟨str "A", 1, none, str "x"⟩, ⟨str "A", 1, some 66, str "Y"⟩]
     [(str "A", AdifType.Boolean true)] (by decide) (by decide)).1,
   (adif_C10_duplicate_keys (str "<a:1>x<A:1:B>Y")
     [⟨str "A", 1, none, str "x"⟩, ⟨str "A", 1, some 66, str "Y"⟩]
     [(str "A", AdifType.Boolean true)] (by decide) (by decide)).2.1 (str "A")⟩

/-! ### Decimal rendering facts -/

theorem natDigitsF_zero (f : Nat) : natDigitsF f 0 = [] := by
  cases f <;> simp [natDigitsF]

theorem natDigitsF_digits : ∀ f n : Nat, ∀ c ∈ natDigitsF f n, isDigitCh c = true := by
  intro f
  induction f with
  | zero => intro n c hc; simp [natDigitsF] at hc
  | succ f ih =>
    intro n c hc
    simp only [natDigitsF] at hc
    split at hc
    · simp at hc
    · rcases List.mem_append.mp hc with h1 | h2
      · exact ih _ c h1
      · simp only [List.mem_singleton] at h2
        subst h2
        simp only [isDigitCh, Bool.and_eq_true, decide_eq_true_eq]
        omega

theorem natToStr_digits (n : Nat) : ∀ c ∈ natToStr n, isDigitCh c = true := by
  intro c hc
  unfold natToStr at hc
  split at hc
  · simp only [List.mem_singleton] at hc; subst hc; decide
  · exact natDigitsF_digits _ n c hc

theorem natToStr_ne_nil (n : Nat) : natToStr n ≠ [] := by
  unfold natToStr
  split
  · simp
  · rename_i h
    simp [natDigitsF, h]

theorem pad2_digits (n : Nat) : ∀ c ∈ pad2 n, isDigitCh c = true := by
  intro c hc
  unfold pad2 at hc
  split at hc
  · rcases List.mem_cons.mp hc with rfl | hc'
    · decide
    · exact natToStr_digits n c hc'
  · exact natToStr_digits n c hc

theorem natDigitsF_foldl : ∀ f n : Nat, n < f → ∀ acc,
    List.foldl (fun a d => a * 10 + (d - 48)) acc (natDigitsF f n) =
      acc * 10 ^ (natDigitsF f n).length + n := by
  intro f
  induction f with
  | zero => intro n h; omega
  | succ f ih =>
    intro n h acc
    by_cases h0 : n = 0
    · subst h0; simp [natDigitsF]
    · simp only [natDigitsF, if_neg h0]
      rw [List.foldl_append]
      have hn : n / 10 < f := by
        have := Nat.div_lt_self (by omega : 0 < n) (by omega : 1 < 10)
        omega
      rw [ih (n / 10) hn acc]
      simp only [List.foldl_cons, List.foldl_nil, List.length_append,
        List.length_cons, List.length_nil, Nat.zero_add]
      have h48 : 48 + n % 10 - 48 = n % 10 := by omega
      rw [h48, pow_succ, Nat.add_mul, Nat.mul_assoc]
      omega

theorem natOfDigits_natToStr (n : Nat) : natOfDigits (natToStr n) = n := by
  unfold natToStr natOfDigits
  split
  · rename_i h; subst h; rfl
  · rw [natDigitsF_foldl (n + 1) n (by omega) 0]
    simp

theorem natOfDigits_cons48 (l : Chars) : natOfDigits (48 :: l) = natOfDigits l := rfl

theorem natOfDigits_pad2 (n : Nat) : natOfDigits (pad2 n) = n := by
  unfold pad2
  split
  · rw [natOfDigits_cons48, natOfDigits_natToStr]
  · exact natOfDigits_natToStr n

theorem natDigitsF_length : ∀ k f n : Nat, n < f → 10 ^ k ≤ n → n < 10 ^ (k + 1) →
    (natDigitsF f n).length = k + 1 := by
  intro k
  induction k with
  | zero =>
    intro f n hf h1 h2
    match f with
    | 0 => omega
    | f + 1 =>
      rw [show (10:ℕ) ^ 0 = 1 from by norm_num] at h1
      rw [show (10:ℕ) ^ (0 + 1) = 10 from by norm_num] at h2
      simp only [natDigitsF, if_neg (by omega : ¬ n = 0)]
      rw [show n / 10 = 0 by omega, natDigitsF_zero]
      rfl
  | succ k ih =>
    intro f n hf h1 h2
    have hp1 : 1 ≤ 10 ^ k := Nat.one_le_pow _ _ (by omega)
    have hp2 : (10:ℕ) ^ (k + 1) = 10 ^ k * 10 := pow_succ 10 k
    match f with
    | 0 => omega
    | f + 1 =>
      have hn0 : ¬ n = 0 := by omega
      simp only [natDigitsF, if_neg hn0]
      rw [List.length_append]
      have hd1 : 10 ^ k ≤ n / 10 := by
        rw [Nat.le_div_iff_mul_le (by omega : 0 < 10)]
        omega
      have hd2 : n / 10 < 10 ^ (k + 1) := by
        rw [Nat.div_lt_iff_lt_mul (by omega : 0 < 10)]
        have hp3 : (10:ℕ) ^ (k + 1 + 1) = 10 ^ (k + 1) * 10 := pow_succ 10 (k + 1)
        omega
      have hf' : n / 10 < f := by
        have := Nat.div_lt_self (by omega : 0 < n) (by omega : 1 < 10)
        omega
      rw [ih f (n / 10) hf' hd1 hd2]
      simp

theorem natToStr_length4 (n : Nat) (h1 : 1000 ≤ n) (h2 : n ≤ 9999) :
    (natToStr n).length = 4 := by
  unfold natToStr
  rw [if_neg (by omega)]
  exact natDigitsF_length 3 (n + 1) n (by omega)
    (by rw [show (10:ℕ) ^ 3 = 1000 from by norm_num]; omega)
    (by rw [show (10:ℕ) ^ (3 + 1) = 10000 from by norm_num]; omega)

theorem pad2_length (n : Nat) (h : n ≤ 99) : (pad2 n).length = 2 := by
  unfold pad2
  split
  · rename_i h10
    simp only [List.length_cons]
    by_cases h0 : n = 0
    · subst h0; rfl
    · unfold natToStr
      rw [if_neg h0]
      rw [natDigitsF_length 0 (n + 1) n (by omega)
        (by simpa using (by omega : 1 ≤ n))
        (by rw [show (10:ℕ) ^ (0 + 1) = 10 from by norm_num]; omega)]
  · rename_i h10
    unfold natToStr
    rw [if_neg (by omega)]
    exact natDigitsF_length 1 (n + 1) n (by omega)
      (by rw [show (10:ℕ) ^ 1 = 10 from by norm_num]; omega)
      (by rw [show (10:ℕ) ^ (1 + 1) = 100 from by norm_num]; omega)

theorem isDigit_not_ws (c : Nat) (h : isDigitCh c = true) : isWsCh c = false := by
  simp only [isDigitCh, Bool.and_eq_true, decide_eq_true_eq] at h
  simp only [isWsCh, Bool.or_eq_false_iff, Bool.and_eq_false_iff,
    beq_eq_false_iff_ne, ne_eq, decide_eq_false_iff_not, not_le]
  omega

theorem isDigit_ne60 (c : Nat) (h : isDigitCh c = true) : c ≠ 60 := by
  simp only [isDigitCh, Bool.and_eq_true, decide_eq_true_eq] at h
  omega

/-! ### Trimming and value-text facts -/

theorem dropWhile_head_false (p : Nat → Bool) (l : Chars)
    (h : ∀ c ∈ l, p c = false) : l.dropWhile p = l := by
  cases l with
  | nil => rfl
  | cons a t => simp [List.dropWhile_cons, h a (by simp)]

theorem trimEnd_all_nonws (l : Chars) (h : ∀ c ∈ l, isWsCh c = false) :
    trimEnd l = l := by
  unfold trimEnd
  rw [dropWhile_head_false isWsCh l.reverse (fun c hc => h c (List.mem_reverse.mp hc))]
  exact List.reverse_reverse l

theorem trimEnd_append_ws (v w : Chars) (h : ∀ c ∈ w, isWsCh c = true) :
    trimEnd (v ++ w) = trimEnd v := by
  unfold trimEnd
  rw [List.reverse_append, dropWhile_all_append isWsCh w.reverse v.reverse
    (fun c hc => h c (List.mem_reverse.mp hc))]

theorem take_len_append (l₁ l₂ : Chars) : (l₁ ++ l₂).take l₁.length = l₁ := by
  induction l₁ with
  | nil => rfl
  | cons a t ih => simp [ih]

theorem drop_len_append (l₁ l₂ : Chars) : (l₁ ++ l₂).drop l₁.length = l₂ := by
  induction l₁ with
  | nil => rfl
  | cons a t ih => simp [ih]

theorem goodStr_spec {s : Chars} (h : goodStr s = true) :
    (∀ c ∈ s, c ≤ 127 ∧ c ≠ 10 ∧ c ≠ 60) ∧ trimEnd s = s := by
  simp only [goodStr, Bool.and_eq_true, List.all_eq_true, beq_iff_eq,
    decide_eq_true_eq] at h
  obtain ⟨⟨h1, h2⟩, h3⟩ := h
  refine ⟨fun c hc => ?_, h2⟩
  have hc2 := h1 c hc
  simp only [Bool.and_eq_true, decide_eq_true_eq, bne_iff_ne, ne_eq] at hc2
  exact ⟨hc2.1.1, hc2.1.2, hc2.2⟩

theorem goodStr_len {s : Chars} (h : goodStr s = true) :
    utf8Len s ≤ USIZE_MAX := by
  simp only [goodStr, Bool.and_eq_true, decide_eq_true_eq] at h
  exact h.2

theorem goodVal_date {d : NDate} (h : goodVal (AdifType.Date d) = true) :
    validDate d.year d.month d.day = true ∧ 1930 ≤ d.year ∧ d.year ≤ 9999 := by
  simp only [goodVal, Bool.and_eq_true, decide_eq_true_eq] at h
  exact ⟨h.1.1, h.1.2, h.2⟩

theorem goodVal_time {t : NTime} (h : goodVal (AdifType.Time t) = true) :
    t.hour ≤ 23 ∧ t.minute ≤ 59 ∧ t.second ≤ 59 := by
  simp only [goodVal, Bool.and_eq_true, decide_eq_true_eq] at h
  exact ⟨h.1.1, h.1.2, h.2⟩

theorem validDate_bounds {y : Int} {m d : Nat} (h : validDate y m d = true) :
    1 ≤ m ∧ m ≤ 12 ∧ 1 ≤ d ∧ d ≤ 31 := by
  simp only [validDate, Bool.and_eq_true, decide_eq_true_eq] at h
  have hdm : daysInMonth y m ≤ 31 := by
    unfold daysInMonth
    split
    · split <;> omega
    · split <;> omega
  omega

theorem valText_date (d : NDate) (h : 1930 ≤ d.year) :
    valTextP (AdifType.Date d) =
      natToStr d.year.toNat ++ (pad2 d.month ++ pad2 d.day) := by
  simp only [valTextP, intToStr, if_neg (by omega : ¬ d.year < 0), List.append_assoc]

theorem valText_digits {v : AdifType} (hv : goodVal v = true)
    (hnotstr : ∀ s, v ≠ AdifType.Str s) (hnotb : ∀ b, v ≠ AdifType.Boolean b) :
    ∀ c ∈ valTextP v, isDigitCh c = true := by
  cases v with
  | Str s => exact absurd rfl (hnotstr s)
  | Boolean b => exact absurd rfl (hnotb b)
  | Number q => simp [goodVal] at hv
  | Date d =>
    intro c hc
    rw [valText_date d (goodVal_date hv).2.1] at hc
    rcases List.mem_append.mp hc with hca | hcb
    · exact natToStr_digits _ c hca
    · rcases List.mem_append.mp hcb with hcc | hcd
      · exact pad2_digits _ c hcc
      · exact pad2_digits _ c hcd
  | Time t =>
    intro c hc
    simp only [valTextP, List.append_assoc] at hc
    rcases List.mem_append.mp hc with hca | hcb
    · exact pad2_digits _ c hca
    · rcases List.mem_append.mp hcb with hcc | hcd
      · exact pad2_digits _ c hcc
      · exact pad2_digits _ c hcd

theorem valText_props {v : AdifType} (hv : goodVal v = true) :
    (∀ c ∈ valTextP v, (c != 60) = true) ∧ trimEnd (valTextP v) = valTextP v := by
  cases v with
  | Str s =>
    have hs := goodStr_spec (s := s) (by simpa [goodVal] using hv)
    refine ⟨fun c hc => ?_, hs.2⟩
    simpa using (hs.1 c hc).2.2
  | Boolean b => cases b <;> exact ⟨by decide, by decide⟩
  | Number q => simp [goodVal] at hv
  | Date d =>
    have hd := valText_digits hv (by intro s h; cases h) (by intro b h; cases h)
    exact ⟨fun c hc => by simpa using isDigit_ne60 c (hd c hc),
      trimEnd_all_nonws _ (fun c hc => isDigit_not_ws c (hd c hc))⟩
  | Time t =>
    have hd := valText_digits hv (by intro s h; cases h) (by intro b h; cases h)
    exact ⟨fun c hc => by simpa using isDigit_ne60 c (hd c hc),
      trimEnd_all_nonws _ (fun c hc => isDigit_not_ws c (hd c hc))⟩

theorem utf8SizeCh_le (c : Nat) : utf8SizeCh c ≤ 4 := by
  unfold utf8SizeCh
  split
  · omega
  · split
    · omega
    · split <;> omega

theorem utf8Len_le (l : Chars) : utf8Len l ≤ 4 * l.length := by
  unfold utf8Len
  induction l with
  | nil => simp
  | cons a t ih =>
    simp only [List.map_cons, List.sum_cons, List.length_cons]
    have ha := utf8SizeCh_le a
    omega

theorem goodVal_len (v : AdifType) (h : goodVal v = true) :
    utf8Len (valTextP v) ≤ USIZE_MAX := by
  cases v with
  | Str s => exact goodStr_len (by simpa [goodVal] using h)
  | Boolean b => cases b <;> decide
  | Number q => simp [goodVal] at h
  | Date d =>
    obtain ⟨hval, h1, h2⟩ := goodVal_date h
    obtain ⟨hm1, hm12, hd1, hd31⟩ := validDate_bounds hval
    have hlen : (valTextP (AdifType.Date d)).length = 8 := by
      rw [valText_date d h1]
      simp [List.length_append, natToStr_length4 d.year.toNat (by omega) (by omega),
        pad2_length d.month (by omega), pad2_length d.day (by omega)]
    have hle := utf8Len_le (valTextP (AdifType.Date d))
    rw [hlen] at hle
    exact le_trans hle (by decide)
  | Time t =>
    obtain ⟨hh, hm, hs⟩ := goodVal_time h
    have hlen : (valTextP (AdifType.Time t)).length = 6 := by
      simp [valTextP, List.length_append, pad2_length t.hour (by omega),
        pad2_length t.minute (by omega), pad2_length t.second (by omega)]
    have hle := utf8Len_le (valTextP (AdifType.Time t))
    rw [hlen] at hle
    exact le_trans hle (by decide)

theorem mkToken_len_le (k : Chars) (v : AdifType) (h : goodVal v = true) :
    (mkToken k v).len ≤ USIZE_MAX := by
  show natOfDigits (natToStr (utf8Len (valTextP v))) ≤ USIZE_MAX
  rw [natOfDigits_natToStr]
  exact goodVal_len v h

theorem mkTokens_bounded (fs : List (Chars × AdifType))
    (h : ∀ kv ∈ fs, goodVal kv.2 = true) :
    (fs.map (fun kv => mkToken kv.1 kv.2)).all
      (fun t => t.len ≤ USIZE_MAX) = true := by
  rw [List.all_eq_true]
  intro t ht
  obtain ⟨kv, hkv, rfl⟩ := List.mem_map.mp ht
  exact decide_eq_true (mkToken_len_le kv.1 kv.2 (h kv hkv))

theorem all_digits_append3 (a b c : Chars)
    (ha : ∀ x ∈ a, isDigitCh x = true) (hb : ∀ x ∈ b, isDigitCh x = true)
    (hc : ∀ x ∈ c, isDigitCh x = true) :
    (a ++ (b ++ c)).all isDigitCh = true := by
  rw [List.all_eq_true]
  intro x hx
  rcases List.mem_append.mp hx with h1 | h2
  · exact ha x h1
  · rcases List.mem_append.mp h2 with h3 | h4
    · exact hb x h3
    · exact hc x h4

theorem dateParse_roundtrip (d : NDate)
    (hval : validDate d.year d.month d.day = true)
    (h1 : 1930 ≤ d.year) (h2 : d.year ≤ 9999) :
    dateParse (natToStr d.year.toNat ++ (pad2 d.month ++ pad2 d.day)) = some d := by
  obtain ⟨hm1, hm12, hd1, hd31⟩ := validDate_bounds hval
  have hylen : (natToStr d.year.toNat).length = 4 :=
    natToStr_length4 _ (by omega) (by omega)
  have hmlen : (pad2 d.month).length = 2 := pad2_length _ (by omega)
  have hdlen : (pad2 d.day).length = 2 := pad2_length _ (by omega)
  have htotal : (natToStr d.year.toNat ++ (pad2 d.month ++ pad2 d.day)).length = 8 := by
    simp [List.length_append, hylen, hmlen, hdlen]
  have hall := all_digits_append3 _ _ _ (natToStr_digits d.year.toNat)
    (pad2_digits d.month) (pad2_digits d.day)
  unfold dateParse
  rw [if_pos (by rw [htotal, hall]; rfl)]
  have ht4 : (natToStr d.year.toNat ++ (pad2 d.month ++ pad2 d.day)).take 4 =
      natToStr d.year.toNat := by
    rw [← hylen, take_len_append]
  have hd4 : (natToStr d.year.toNat ++ (pad2 d.month ++ pad2 d.day)).drop 4 =
      pad2 d.month ++ pad2 d.day := by
    rw [← hylen, drop_len_append]
  have ht2 : (pad2 d.month ++ pad2 d.day).take 2 = pad2 d.month := by
    rw [← hmlen, take_len_append]
  have hd6 : (natToStr d.year.toNat ++ (pad2 d.month ++ pad2 d.day)).drop 6 =
      pad2 d.day := by
    have : (6:ℕ) = 4 + 2 := by norm_num
    rw [this, ← List.drop_drop, hd4, ← hmlen, drop_len_append]
  rw [ht4, hd4, ht2, hd6, natOfDigits_natToStr, natOfDigits_pad2, natOfDigits_pad2]
  have hy : Int.ofNat d.year.toNat = d.year := Int.toNat_of_nonneg (by omega)
  dsimp only
  rw [hy, if_pos hval]

theorem timeParse_roundtrip (t : NTime)
    (hh : t.hour ≤ 23) (hm : t.minute ≤ 59) (hs : t.second ≤ 59) :
    timeParse (pad2 t.hour ++ (pad2 t.minute ++ pad2 t.second)) = some t := by
  have hhlen : (pad2 t.hour).length = 2 := pad2_length _ (by omega)
  have hmlen : (pad2 t.minute).length = 2 := pad2_length _ (by omega)
  have hslen : (pad2 t.second).length = 2 := pad2_length _ (by omega)
  have htotal : (pad2 t.hour ++ (pad2 t.minute ++ pad2 t.second)).length = 6 := by
    simp [List.length_append, hhlen, hmlen, hslen]
  have hall := all_digits_append3 _ _ _ (pad2_digits t.hour)
    (pad2_digits t.minute) (pad2_digits t.second)
  unfold timeParse
  rw [if_pos (by rw [htotal, hall]; rfl)]
  have ht2 : (pad2 t.hour ++ (pad2 t.minute ++ pad2 t.second)).take 2 = pad2 t.hour := by
    rw [← hhlen, take_len_append]
  have hd2 : (pad2 t.hour ++ (pad2 t.minute ++ pad2 t.second)).drop 2 =
      pad2 t.minute ++ pad2 t.second := by
    rw [← hhlen, drop_len_append]
  have ht2' : (pad2 t.minute ++ pad2 t.second).take 2 = pad2 t.minute := by
    rw [← hmlen, take_len_append]
  have hd4 : (pad2 t.hour ++ (pad2 t.minute ++ pad2 t.second)).drop 4 =
      pad2 t.second := by
    have : (4:ℕ) = 2 + 2 := by norm_num
    rw [this, ← List.drop_drop, hd2, ← hmlen, drop_len_append]
  rw [ht2, hd2, ht2', hd4, natOfDigits_pad2, natOfDigits_pad2, natOfDigits_pad2]
  dsimp only
  rw [if_pos (by simp only [Bool.and_eq_true, decide_eq_true_eq]; omega)]

theorem decode_mkToken (k : Chars) (v : AdifType) (hv : goodVal v = true) :
    decodeToken (mkToken k v) = some v := by
  cases v with
  | Str s => rfl
  | Boolean b => cases b <;> rfl
  | Number q => simp [goodVal] at hv
  | Date d =>
    obtain ⟨hval, h1, h2⟩ := goodVal_date hv
    show (dateParse (valTextP (AdifType.Date d))).map AdifType.Date = some (AdifType.Date d)
    rw [valText_date d h1, dateParse_roundtrip d hval h1 h2]
    rfl
  | Time t =>
    obtain ⟨hh, hm, hs⟩ := goodVal_time hv
    show (timeParse (valTextP (AdifType.Time t))).map AdifType.Time = some (AdifType.Time t)
    rw [show valTextP (AdifType.Time t) =
      pad2 t.hour ++ (pad2 t.minute ++ pad2 t.second) from by
        simp [valTextP, List.append_assoc]]
    rw [timeParse_roundtrip t hh hm hs]
    rfl

/-! ### Serialization of round-trip-safe fields -/

theorem mapIdOn (f : Nat → Nat) (l : Chars) (h : ∀ c ∈ l, f c = c) :
    l.map f = l := by
  induction l with
  | nil => rfl
  | cons a t ih =>
    simp only [List.map_cons, h a (by simp)]
    rw [ih (fun c hc => h c (by simp [hc]))]

theorem contains_false_of {α : Type} [BEq α] [LawfulBEq α] (l : List α) (a : α)
    (h : ∀ c ∈ l, c ≠ a) : l.contains a = false := by
  induction l with
  | nil => rfl
  | cons c t ih =>
    simp only [List.contains_cons, Bool.or_eq_false_iff]
    constructor
    · exact beq_eq_false_iff_ne.mpr (fun he => h c (by simp) he.symm)
    · exact ih (fun x hx => h x (by simp [hx]))

theorem goodKey_spec {k : Chars} (h : goodKey k = true) :
    k ≠ [] ∧ ∀ c ∈ k, (65 ≤ c ∧ c ≤ 90) ∨ c = 95 := by
  simp only [goodKey, Bool.and_eq_true, Bool.not_eq_true', List.all_eq_true] at h
  constructor
  · intro he
    subst he
    simp at h
  · intro c hc
    have h2 := h.2 c hc
    simp only [Bool.or_eq_true, Bool.and_eq_true, decide_eq_true_eq, beq_iff_eq] at h2
    omega

theorem goodKey_keyCh {k : Chars} (h : goodKey k = true) :
    ∀ c ∈ k, isKeyCh c = true := by
  intro c hc
  have := (goodKey_spec h).2 c hc
  simp only [isKeyCh, Bool.or_eq_true, Bool.and_eq_true, decide_eq_true_eq, beq_iff_eq]
  omega

theorem goodKey_upFix {k : Chars} (h : goodKey k = true) : k.map upCh = k := by
  apply mapIdOn
  intro c hc
  have := (goodKey_spec h).2 c hc
  unfold upCh
  rw [if_neg]
  simp only [Bool.and_eq_true, decide_eq_true_eq, not_and]
  omega

theorem normalizeKey_good {k : Chars} (h : goodKey k = true) :
    normalizeKey k = k := by
  unfold normalizeKey
  rw [goodKey_upFix h]
  apply mapIdOn
  intro c hc
  have := (goodKey_spec h).2 c hc
  rw [if_neg (by omega)]

theorem valueText_ok {v : AdifType} (hv : goodVal v = true) :
    v.valueText = Except.ok (valTextP v) := by
  cases v with
  | Str s =>
    have hs := goodStr_spec (s := s) (by simpa [goodVal] using hv)
    simp only [AdifType.valueText]
    rw [if_neg (by
      rw [contains_false_of s 10 (fun c hc => (hs.1 c hc).2.1)]
      simp)]
    rw [if_neg (by
      simp only [Bool.not_eq_true', Bool.not_eq_false]
      rw [List.all_eq_true]
      intro c hc
      simpa using (hs.1 c hc).1)]
    rfl
  | Boolean b => rfl
  | Number q => simp [goodVal] at hv
  | Date d =>
    obtain ⟨hval, h1, h2⟩ := goodVal_date hv
    simp only [AdifType.valueText]
    rw [if_neg (by omega)]
    rfl
  | Time t => rfl

theorem serialize_ok (k : Chars) (v : AdifType)
    (hk : goodKey k = true) (hv : goodVal v = true) :
    v.serialize k = Except.ok (tagChars k v) := by
  unfold AdifType.serialize
  rw [valueText_ok hv]
  unfold tagChars
  rw [normalizeKey_good hk]

theorem collectTags_ok (fs : List (Chars × AdifType)) (h : goodFields fs = true) :
    collectTags fs = Except.ok (fs.map (fun kv => tagChars kv.1 kv.2)) := by
  induction fs with
  | nil => rfl
  | cons kv rest ih =>
    simp only [goodFields, List.all_cons, Bool.and_eq_true] at h
    unfold collectTags
    rw [serialize_ok _ _ h.1.1 h.1.2, ih (by simp [goodFields, h.2])]
    rfl

theorem record_serialize_ok (r : AdifRecord) (h : goodFields r.fields = true) :
    r.serialize = Except.ok (tagStream r.fields ++ str "<eor>") := by
  unfold AdifRecord.serialize
  rw [collectTags_ok _ h]
  rfl

theorem header_serializeAt_ok (h : AdifHeader) (nowD : NDate) (nowT : NTime)
    (hg : goodFields h.fields = true) :
    h.serializeAt nowD nowT = Except.ok (headerBanner nowD nowT ++
      joinSep [10] (h.fields.map (fun kv => tagChars kv.1 kv.2)) ++ [10] ++
      str "<EOH>") := by
  unfold AdifHeader.serializeAt
  rw [collectTags_ok _ hg]

/-! ### Tokenizing serialized tag streams -/

theorem tryMatch_non60 {c : Nat} (h : c ≠ 60) (cs : Chars) :
    tryMatch (c :: cs) = none := by
  simp only [tryMatch, if_neg h]

theorem takeWhile_mem_pred (p : Nat → Bool) (l : Chars) :
    ∀ c ∈ l.takeWhile p, p c = true := by
  induction l with
  | nil => simp
  | cons a t ih =>
    intro c hc
    rw [List.takeWhile_cons] at hc
    split at hc
    · rcases List.mem_cons.mp hc with rfl | h2
      · assumption
      · exact ih c h2
    · simp at hc

theorem tokenize_skip (w l : Chars) (h : ∀ c ∈ w, c ≠ 60) :
    tokenize (w ++ l) = tokenize l := by
  induction w with
  | nil => rfl
  | cons c w' ih =>
    rw [List.cons_append, tokenize_cons, tryMatch_non60 (h c (by simp)) (w' ++ l)]
    exact ih (fun x hx => h x (by simp [hx]))

theorem tagChars_shape_none (k : Chars) (v : AdifType)
    (h : v.get_data_type_indicator = none) (cont : Chars) :
    tagChars k v ++ cont =
      60 :: (k ++ 58 :: (natToStr (utf8Len (valTextP v)) ++
        62 :: (valTextP v ++ cont))) := by
  simp [tagChars, h, List.append_assoc]

theorem tagChars_shape_some (k : Chars) (v : AdifType) (t : Nat)
    (h : v.get_data_type_indicator = some t) (cont : Chars) :
    tagChars k v ++ cont =
      60 :: (k ++ 58 :: (natToStr (utf8Len (valTextP v)) ++
        58 :: t :: 62 :: (valTextP v ++ cont))) := by
  simp [tagChars, h, List.append_assoc]

theorem tokenize_tag_step (k : Chars) (v : AdifType) (cont : Chars)
    (hk : goodKey k = true) (hv : goodVal v = true)
    (hsep : ∀ c ∈ cont.takeWhile (fun c => c != 60), isWsCh c = true) :
    tokenize (tagChars k v ++ cont) =
      mkToken k v :: tokenize cont := by
  obtain ⟨hk1, _⟩ := goodKey_spec hk
  have hkc := goodKey_keyCh hk
  have hds1 : natToStr (utf8Len (valTextP v)) ≠ [] := natToStr_ne_nil _
  have hds2 := natToStr_digits (utf8Len (valTextP v))
  obtain ⟨hv60, hvtrim⟩ := valText_props hv
  have hval_take : (valTextP v ++ cont).takeWhile (fun c => c != 60) =
      valTextP v ++ cont.takeWhile (fun c => c != 60) :=
    takeWhile_all_append _ _ _ hv60
  have hval_drop : (valTextP v ++ cont).dropWhile (fun c => c != 60) =
      cont.dropWhile (fun c => c != 60) :=
    dropWhile_all_append _ _ _ hv60
  have htrim : trimEnd ((valTextP v ++ cont).takeWhile (fun c => c != 60)) =
      valTextP v := by
    rw [hval_take, trimEnd_append_ws _ _ hsep, hvtrim]
  have hcont : tokenize cont =
      tokenize (cont.dropWhile (fun c => c != 60)) := by
    conv_lhs => rw [← List.takeWhile_append_dropWhile (p := fun c => c != 60) (l := cont)]
    exact tokenize_skip _ _
      (fun c hc => by simpa using takeWhile_mem_pred _ cont c hc)
  cases hind : v.get_data_type_indicator with
  | none =>
    rw [tagChars_shape_none k v hind cont, tokenize_cons,
      tryMatch_tag_none k _ _ hk1 hkc hds1 hds2]
    rw [goodKey_upFix hk, htrim, hval_drop]
    dsimp only
    rw [← hcont]
    simp [mkToken, hind]
  | some t =>
    have ht : isLetterCh t = true ∧ upCh t = t := by
      cases v with
      | Str s => simp [AdifType.get_data_type_indicator] at hind
      | Boolean b =>
        simp only [AdifType.get_data_type_indicator, Option.some.injEq] at hind
        subst hind
        exact ⟨by decide, by decide⟩
      | Number q => simp [goodVal] at hv
      | Date d =>
        simp only [AdifType.get_data_type_indicator, Option.some.injEq] at hind
        subst hind
        exact ⟨by decide, by decide⟩
      | Time t' =>
        simp only [AdifType.get_data_type_indicator, Option.some.injEq] at hind
        subst hind
        exact ⟨by decide, by decide⟩
    rw [tagChars_shape_some k v t hind cont, tokenize_cons,
      tryMatch_tag_some k _ _ t hk1 hkc hds1 hds2 ht.1]
    rw [goodKey_upFix hk, htrim, hval_drop, ht.2]
    dsimp only
    rw [← hcont]
    simp [mkToken, hind]

theorem tagStream_cons (kv : Chars × AdifType) (fs : List (Chars × AdifType)) :
    tagStream (kv :: fs) = tagChars kv.1 kv.2 ++ tagStream fs := by
  simp [tagStream]

theorem takeWhile_tagChars (k : Chars) (v : AdifType) (rest : Chars) :
    (tagChars k v ++ rest).takeWhile (fun c => c != 60) = [] := by
  simp [tagChars]

theorem tagStream_sep (fs : List (Chars × AdifType)) (cont : Chars)
    (hsep : ∀ c ∈ cont.takeWhile (fun c => c != 60), isWsCh c = true) :
    ∀ c ∈ (tagStream fs ++ cont).takeWhile (fun c => c != 60), isWsCh c = true := by
  cases fs with
  | nil => simpa [tagStream] using hsep
  | cons kv fs' =>
    intro c hc
    rw [tagStream_cons, List.append_assoc, takeWhile_tagChars] at hc
    simp at hc

theorem tokenize_tagStream (fs : List (Chars × AdifType)) (cont : Chars)
    (hf : goodFields fs = true)
    (hsep : ∀ c ∈ cont.takeWhile (fun c => c != 60), isWsCh c = true) :
    tokenize (tagStream fs ++ cont) =
      fs.map (fun kv => mkToken kv.1 kv.2) ++ tokenize cont := by
  induction fs with
  | nil => simp [tagStream]
  | cons kv fs' ih =>
    simp only [goodFields, List.all_cons, Bool.and_eq_true] at hf
    rw [tagStream_cons, List.append_assoc,
      tokenize_tag_step kv.1 kv.2 _ hf.1.1 hf.1.2 (tagStream_sep fs' cont hsep),
      ih (by simp [goodFields, hf.2])]
    simp

theorem ctm_of_good_aux : ∀ fs : List (Chars × AdifType),
    ∀ m₀ : List (Chars × AdifType),
    (∀ kv ∈ fs, goodVal kv.2 = true) →
    (m₀.map Prod.fst ++ fs.map Prod.fst).Nodup →
    createTokenMapAux (fs.map (fun kv => mkToken kv.1 kv.2)) m₀ =
      some (m₀ ++ fs) := by
  intro fs
  induction fs with
  | nil => intro m₀ _ _; simp [createTokenMapAux]
  | cons kv fs' ih =>
    intro m₀ hv hnd
    obtain ⟨k, v⟩ := kv
    simp only [List.map_cons, createTokenMapAux,
      decode_mkToken k v (hv (k, v) (by simp))]
    have hknotin : k ∉ m₀.map Prod.fst := by
      simp only [List.map_cons] at hnd
      have hd := (List.nodup_append.mp hnd).2.2
      intro hk
      exact hd hk (by simp)
    have hcf : (m₀.map Prod.fst).contains k = false :=
      contains_false_of (m₀.map Prod.fst) k (fun c hc he => hknotin (he ▸ hc))
    have hins : imInsert m₀ k v = m₀ ++ [(k, v)] := by
      unfold imInsert
      rw [if_neg (by rw [hcf]; simp)]
    have hkey : (mkToken k v).key = k := rfl
    rw [hkey, hins]
    have hnd' : ((m₀ ++ [(k, v)]).map Prod.fst ++ fs'.map Prod.fst).Nodup := by
      simp only [List.map_append, List.map_cons, List.map_nil, List.append_assoc,
        List.singleton_append]
      simpa [List.map_cons] using hnd
    rw [ih (m₀ ++ [(k, v)]) (fun x hx => hv x (by simp [hx])) hnd']
    simp

theorem ctm_of_good (fs : List (Chars × AdifType))
    (hv : ∀ kv ∈ fs, goodVal kv.2 = true) (hnd : (fs.map Prod.fst).Nodup) :
    create_token_map (fs.map (fun kv => mkToken kv.1 kv.2)) = some fs := by
  have := ctm_of_good_aux fs [] hv (by simpa using hnd)
  simpa [create_token_map] using this

/-! ### Terminator patterns never occur inside serialized tag text -/

theorem keyUp_of_cond {c : Nat}
    (h : ((65 ≤ c && c ≤ 90) || c == 95) = true) : (65 ≤ c ∧ c ≤ 90) ∨ c = 95 := by
  simp only [Bool.or_eq_true, Bool.and_eq_true, decide_eq_true_eq, beq_iff_eq] at h
  omega

theorem prefix_fail_key : ∀ l : Chars, ∀ st : Nat, (st = 1 ∨ st = 2) →
    ltOkSt l st = true → ∀ s r₀ : Chars, (∀ c ∈ r₀, c ≠ 58) →
    (r₀ ++ [62]).isPrefixOf (l ++ s) = false := by
  intro l
  induction l with
  | nil =>
    intro st hst h
    rcases hst with rfl | rfl <;> simp [ltOkSt] at h
  | cons c l' ih =>
    intro st hst h s r₀ hr
    have hkey : ∀ hc : ((65 ≤ c && c ≤ 90) || c == 95) = true,
        ltOkSt l' 2 = true → (r₀ ++ [62]).isPrefixOf (c :: l' ++ s) = false := by
      intro hc h2
      have hck := keyUp_of_cond hc
      cases r₀ with
      | nil =>
        simp only [List.nil_append, List.cons_append, List.isPrefixOf,
          Bool.and_eq_false_iff]
        left
        exact beq_eq_false_iff_ne.mpr (by omega)
      | cons p ps =>
        simp only [List.cons_append, List.isPrefixOf, Bool.and_eq_false_iff]
        by_cases hpc : p = c
        · right
          subst hpc
          exact ih 2 (Or.inr rfl) h2 s ps (fun x hx => hr x (by simp [hx]))
        · left
          exact beq_eq_false_iff_ne.mpr hpc
    rcases hst with rfl | rfl
    · simp only [ltOkSt] at h
      split at h
      case isTrue hc => exact hkey hc h
      case isFalse => simp at h
    · simp only [ltOkSt] at h
      split at h
      case isTrue hc => exact hkey hc h
      case isFalse hc =>
        split at h
        case isTrue hc58 =>
          have hc58' : c = 58 := by simpa using hc58
          cases r₀ with
          | nil =>
            simp only [List.nil_append, List.cons_append, List.isPrefixOf,
              Bool.and_eq_false_iff]
            left
            exact beq_eq_false_iff_ne.mpr (by omega)
          | cons p ps =>
            simp only [List.cons_append, List.isPrefixOf, Bool.and_eq_false_iff]
            left
            exact beq_eq_false_iff_ne.mpr (by
              have := hr p (by simp)
              omega)
        case isFalse => simp at h

theorem replace_safe (q rep : Chars) (hq : ∀ c ∈ q, c ≠ 58) :
    ∀ l : Chars, ∀ st : Nat, st ≤ 2 → ltOkSt l st = true → ∀ s : Chars,
    replaceAll (60 :: (q ++ [62])) rep (l ++ s) =
      l ++ replaceAll (60 :: (q ++ [62])) rep s := by
  intro l
  induction l with
  | nil => intro st _ _ s; simp
  | cons c l' ih =>
    intro st hst h s
    have hpne : (60 :: (q ++ [62]) : Chars) ≠ [] := by simp
    simp only [List.cons_append]
    rw [replaceAll_cons _ _ hpne]
    interval_cases st
    · simp only [ltOkSt] at h
      split at h
      case isTrue hc =>
        have hc' : c = 60 := by simpa using hc
        subst hc'
        rw [if_neg (by
          simp only [List.isPrefixOf, Bool.and_eq_true]
          rw [prefix_fail_key l' 1 (Or.inl rfl) h s q hq]
          simp)]
        rw [ih 1 (by omega) h s]
      case isFalse hc =>
        have hc' : ¬ c = 60 := by simpa using hc
        rw [if_neg (by
          simp only [List.isPrefixOf, Bool.and_eq_true, beq_iff_eq]
          intro hco
          exact hc' hco.1.symm)]
        rw [ih 0 (by omega) h s]
    · simp only [ltOkSt] at h
      split at h
      case isTrue hc =>
        have hck := keyUp_of_cond hc
        rw [if_neg (by
          simp only [List.isPrefixOf, Bool.and_eq_true, beq_iff_eq]
          intro hco
          omega)]
        rw [ih 2 (by omega) h s]
      case isFalse => simp at h
    · simp only [ltOkSt] at h
      split at h
      case isTrue hc =>
        have hck := keyUp_of_cond hc
        rw [if_neg (by
          simp only [List.isPrefixOf, Bool.and_eq_true, beq_iff_eq]
          intro hco
          omega)]
        rw [ih 2 (by omega) h s]
      case isFalse hc =>
        split at h
        case isTrue hc58 =>
          have hc' : c = 58 := by simpa using hc58
          rw [if_neg (by
            simp only [List.isPrefixOf, Bool.and_eq_true, beq_iff_eq]
            intro hco
            omega)]
          rw [ih 0 (by omega) h s]
        case isFalse => simp at h

theorem split_safe (q : Chars) (hq : ∀ c ∈ q, c ≠ 58) :
    ∀ l : Chars, ∀ st : Nat, st ≤ 2 → ltOkSt l st = true →
    ∀ s hd : Chars, ∀ tl : List Chars,
    splitOnSeq (60 :: (q ++ [62])) s = hd :: tl →
    splitOnSeq (60 :: (q ++ [62])) (l ++ s) = (l ++ hd) :: tl := by
  intro l
  induction l with
  | nil => intro st _ _ s hd tl hs; simpa using hs
  | cons c l' ih =>
    intro st hst h s hd tl hs
    have hpne : (60 :: (q ++ [62]) : Chars) ≠ [] := by simp
    simp only [List.cons_append]
    rw [splitOnSeq_cons _ hpne]
    interval_cases st
    · simp only [ltOkSt] at h
      split at h
      case isTrue hc =>
        have hc' : c = 60 := by simpa using hc
        subst hc'
        rw [if_neg (by
          simp only [List.isPrefixOf, Bool.and_eq_true]
          rw [prefix_fail_key l' 1 (Or.inl rfl) h s q hq]
          simp)]
        rw [ih 1 (by omega) h s hd tl hs]
      case isFalse hc =>
        have hc' : ¬ c = 60 := by simpa using hc
        rw [if_neg (by
          simp only [List.isPrefixOf, Bool.and_eq_true, beq_iff_eq]
          intro hco
          exact hc' hco.1.symm)]
        rw [ih 0 (by omega) h s hd tl hs]
    · simp only [ltOkSt] at h
      split at h
      case isTrue hc =>
        have hck := keyUp_of_cond hc
        rw [if_neg (by
          simp only [List.isPrefixOf, Bool.and_eq_true, beq_iff_eq]
          intro hco
          omega)]
        rw [ih 2 (by omega) h s hd tl hs]
      case isFalse => simp at h
    · simp only [ltOkSt] at h
      split at h
      case isTrue hc =>
        have hck := keyUp_of_cond hc
        rw [if_neg (by
          simp only [List.isPrefixOf, Bool.and_eq_true, beq_iff_eq]
          intro hco
          omega)]
        rw [ih 2 (by omega) h s hd tl hs]
      case isFalse hc =>
        split at h
        case isTrue hc58 =>
          have hc' : c = 58 := by simpa using hc58
          rw [if_neg (by
            simp only [List.isPrefixOf, Bool.and_eq_true, beq_iff_eq]
            intro hco
            omega)]
          rw [ih 0 (by omega) h s hd tl hs]
        case isFalse => simp at h

/-! ### The scanning invariant holds for serialized text -/

theorem ltOk_skip (w : Chars) (hw : ∀ c ∈ w, c ≠ 60) :
    ∀ l : Chars, ltOkSt (w ++ l) 0 = ltOkSt l 0 := by
  induction w with
  | nil => intro l; rfl
  | cons c w' ih =>
    intro l
    simp only [List.cons_append, ltOkSt,
      if_neg (by simpa using hw c (by simp) : ¬ (c == 60) = true)]
    exact ih (fun x hx => hw x (by simp [hx])) l

theorem ltOk_keyrun (k : Chars)
    (hk : ∀ c ∈ k, ((65 ≤ c && c ≤ 90) || c == 95) = true) :
    ∀ rest : Chars, ltOkSt (k ++ 58 :: rest) 2 = ltOkSt rest 0 := by
  induction k with
  | nil =>
    intro rest
    simp [ltOkSt]
  | cons c k' ih =>
    intro rest
    simp only [List.cons_append, ltOkSt, if_pos (hk c (by simp))]
    exact ih (fun x hx => hk x (by simp [hx])) rest

theorem indicator_ne60 {v : AdifType} {t : Nat}
    (h : v.get_data_type_indicator = some t) : t ≠ 60 := by
  cases v <;> simp only [AdifType.get_data_type_indicator, Option.some.injEq,
    reduceCtorEq] at h <;> omega

theorem ltOk_tag (k : Chars) (v : AdifType)
    (hk : goodKey k = true) (hv : goodVal v = true) :
    ∀ cont : Chars, ltOkSt (tagChars k v ++ cont) 0 = ltOkSt cont 0 := by
  intro cont
  obtain ⟨hk1, hk2⟩ := goodKey_spec hk
  have hkcond : ∀ c ∈ k, ((65 ≤ c && c ≤ 90) || c == 95) = true := by
    intro c hc
    have := hk2 c hc
    simp only [Bool.or_eq_true, Bool.and_eq_true, decide_eq_true_eq, beq_iff_eq]
    omega
  have hval60 : ∀ c ∈ valTextP v, c ≠ 60 := by
    intro c hc
    simpa using (valText_props hv).1 c hc
  have hds60 : ∀ c ∈ natToStr (utf8Len (valTextP v)), c ≠ 60 :=
    fun c hc => isDigit_ne60 c (natToStr_digits _ c hc)
  have hkey1 : ∀ rest : Chars, ltOkSt (k ++ 58 :: rest) 1 = ltOkSt rest 0 := by
    intro rest
    cases k with
    | nil => exact absurd rfl hk1
    | cons c k' =>
      simp only [List.cons_append, ltOkSt, if_pos (hkcond c (by simp))]
      exact ltOk_keyrun k' (fun x hx => hkcond x (by simp [hx])) rest
  cases hind : v.get_data_type_indicator with
  | none =>
    rw [tagChars_shape_none k v hind cont]
    show ltOkSt (60 :: (k ++ 58 :: (natToStr (utf8Len (valTextP v)) ++
      62 :: (valTextP v ++ cont)))) 0 = ltOkSt cont 0
    simp only [ltOkSt, if_pos (by decide : ((60:Nat) == 60) = true)]
    rw [hkey1, ltOk_skip _ hds60]
    simp only [ltOkSt, if_neg (by decide : ¬ ((62:Nat) == 60) = true)]
    exact ltOk_skip _ hval60 cont
  | some t =>
    have ht := indicator_ne60 hind
    rw [tagChars_shape_some k v t hind cont]
    show ltOkSt (60 :: (k ++ 58 :: (natToStr (utf8Len (valTextP v)) ++
      58 :: t :: 62 :: (valTextP v ++ cont)))) 0 = ltOkSt cont 0
    simp only [ltOkSt, if_pos (by decide : ((60:Nat) == 60) = true)]
    rw [hkey1, ltOk_skip _ hds60]
    simp only [ltOkSt, if_neg (by decide : ¬ ((58:Nat) == 60) = true),
      if_neg (by simpa using ht : ¬ (t == 60) = true),
      if_neg (by decide : ¬ ((62:Nat) == 60) = true)]
    exact ltOk_skip _ hval60 cont

theorem ltOk_tagStream (fs : List (Chars × AdifType)) (hf : goodFields fs = true) :
    ∀ cont : Chars, ltOkSt (tagStream fs ++ cont) 0 = ltOkSt cont 0 := by
  induction fs with
  | nil => intro cont; simp [tagStream]
  | cons kv fs' ih =>
    intro cont
    simp only [goodFields, List.all_cons, Bool.and_eq_true] at hf
    rw [tagStream_cons, List.append_assoc, ltOk_tag kv.1 kv.2 hf.1.1 hf.1.2,
      ih (by simp [goodFields, hf.2]) cont]

theorem no60_append {a b : Chars} (ha : ∀ c ∈ a, c ≠ 60) (hb : ∀ c ∈ b, c ≠ 60) :
    ∀ c ∈ a ++ b, c ≠ 60 := by
  intro c hc
  rcases List.mem_append.mp hc with h | h
  · exact ha c h
  · exact hb c h

theorem pad4_digits (n : Nat) : ∀ c ∈ pad4 n, isDigitCh c = true := by
  intro c hc
  unfold pad4 at hc
  split at hc
  · rcases List.mem_cons.mp hc with rfl | hc'
    · decide
    · rcases List.mem_cons.mp hc' with rfl | hc''
      · decide
      · rcases List.mem_cons.mp hc'' with rfl | hc'''
        · decide
        · exact natToStr_digits n c hc'''
  · split at hc
    · rcases List.mem_cons.mp hc with rfl | hc'
      · decide
      · rcases List.mem_cons.mp hc' with rfl | hc''
        · decide
        · exact natToStr_digits n c hc''
    · split at hc
      · rcases List.mem_cons.mp hc with rfl | hc'
        · decide
        · exact natToStr_digits n c hc'
      · exact natToStr_digits n c hc

theorem banner_no60 (nd : NDate) (nt : NTime) :
    ∀ c ∈ headerBanner nd nt, c ≠ 60 := by
  have hp4 : ∀ c ∈ pad4 nd.year.toNat, c ≠ 60 :=
    fun c hc => isDigit_ne60 c (pad4_digits _ c hc)
  have hp2 : ∀ n : Nat, ∀ c ∈ pad2 n, c ≠ 60 :=
    fun n c hc => isDigit_ne60 c (pad2_digits n c hc)
  unfold headerBanner
  simp only [List.append_assoc]
  exact no60_append (by decide) (no60_append hp4 (no60_append (by decide)
    (no60_append (hp2 _) (no60_append (by decide) (no60_append (hp2 _)
    (no60_append (by decide) (no60_append (hp2 _) (no60_append (by decide)
    (no60_append (hp2 _) (no60_append (by decide) (no60_append (hp2 _)
    (by decide))))))))))))

theorem ltOk_joined (fs : List (Chars × AdifType)) (hf : goodFields fs = true) :
    ∀ cont : Chars,
    ltOkSt (joinSep [10] (fs.map (fun kv => tagChars kv.1 kv.2)) ++ cont) 0 =
      ltOkSt cont 0 := by
  induction fs with
  | nil => intro cont; rfl
  | cons kv fs' ih =>
    intro cont
    simp only [goodFields, List.all_cons, Bool.and_eq_true] at hf
    cases fs' with
    | nil =>
      simp only [List.map_cons, List.map_nil, joinSep]
      exact ltOk_tag kv.1 kv.2 hf.1.1 hf.1.2 cont
    | cons kv2 fs'' =>
      simp only [List.map_cons, joinSep, List.append_assoc, List.singleton_append]
      rw [ltOk_tag kv.1 kv.2 hf.1.1 hf.1.2]
      show ltOkSt ([10] ++ (joinSep [10]
        (tagChars kv2.1 kv2.2 :: fs''.map (fun kv => tagChars kv.1 kv.2)) ++ cont)) 0 =
        ltOkSt cont 0
      rw [ltOk_skip [10] (by decide)]
      have := ih (by simp [goodFields, hf.2]) cont
      simpa [joinSep] using this

theorem takeWhile_joined_cons (kv2 : Chars × AdifType)
    (fs'' : List (Chars × AdifType)) (tail : Chars) :
    (joinSep [10] (tagChars kv2.1 kv2.2 ::
        fs''.map (fun kv => tagChars kv.1 kv.2)) ++
      tail).takeWhile (fun c => c != 60) = [] := by
  cases fs'' with
  | nil => simp only [List.map_nil, joinSep, takeWhile_tagChars]
  | cons kv3 fs''' =>
    simp only [List.map_cons, joinSep, List.append_assoc, takeWhile_tagChars]

theorem tokenize_joined (fs : List (Chars × AdifType)) (hf : goodFields fs = true) :
    tokenize
      (joinSep [10] (fs.map (fun kv => tagChars kv.1 kv.2)) ++ [10]) =
      fs.map (fun kv => mkToken kv.1 kv.2) := by
  induction fs with
  | nil => decide
  | cons kv fs' ih =>
    simp only [goodFields, List.all_cons, Bool.and_eq_true] at hf
    cases fs' with
    | nil =>
      simp only [List.map_cons, List.map_nil, joinSep]
      rw [tokenize_tag_step kv.1 kv.2 [10] hf.1.1 hf.1.2 (by decide)]
      rw [show tokenize ([10] : Chars) = [] from by decide]
    | cons kv2 fs'' =>
      simp only [List.map_cons, joinSep, List.append_assoc, List.singleton_append,
        List.cons_append, List.nil_append]
      rw [tokenize_tag_step kv.1 kv.2 _ hf.1.1 hf.1.2 (by
        intro c hc
        rw [List.takeWhile_cons, if_pos (by decide)] at hc
        rcases List.mem_cons.mp hc with rfl | hc'
        · decide
        · rw [takeWhile_joined_cons] at hc'
          simp at hc')]
      rw [show (10 :: (joinSep [10] (tagChars kv2.1 kv2.2 ::
        fs''.map (fun kv => tagChars kv.1 kv.2)) ++ [10]) : Chars) =
        [10] ++ (joinSep [10] (tagChars kv2.1 kv2.2 ::
          fs''.map (fun kv => tagChars kv.1 kv.2)) ++ [10]) from rfl]
      rw [tokenize_skip [10] _ (by decide)]
      have ih' := ih (by simp [goodFields, hf.2])
      simp only [List.map_cons] at ih'
      rw [ih']

/-! ### The round trip -/

theorem goodFields_val : ∀ fs : List (Chars × AdifType), goodFields fs = true →
    ∀ kv ∈ fs, goodVal kv.2 = true := by
  intro fs
  induction fs with
  | nil => intro _ kv hkv; simp at hkv
  | cons a t ih =>
    intro h kv hkv
    simp only [goodFields, List.all_cons, Bool.and_eq_true] at h
    rcases List.mem_cons.mp hkv with rfl | hm
    · exact h.1.2
    · exact ih (by simp [goodFields, h.2]) kv hm

theorem parse_record_roundtrip (r : AdifRecord)
    (h1 : goodFields r.fields = true) (h2 : (r.fields.map Prod.fst).Nodup) :
    parse_adif (tagStream r.fields ++ str "<eor>") =
      some ⟨⟨r.fields⟩, [r, ⟨[]⟩]⟩ := by
  have hlt : ltOkSt (tagStream r.fields) 0 = true := by
    have hh := ltOk_tagStream r.fields h1 []
    rw [List.append_nil] at hh
    rw [hh]
    rfl
  have hn : normalizeData (tagStream r.fields ++ str "<eor>") =
      tagStream r.fields ++ str "<EOR>" := by
    unfold normalizeData
    rw [show (str "<eoh>" : Chars) = 60 :: (str "eoh" ++ [62]) from by decide,
      replace_safe (str "eoh") (str "<EOH>") (by decide) _ 0 (by omega) hlt,
      show replaceAll (60 :: (str "eoh" ++ [62])) (str "<EOH>") (str "<eor>") =
        str "<eor>" from by decide,
      show (str "<eor>" : Chars) = 60 :: (str "eor" ++ [62]) from by decide,
      replace_safe (str "eor") (str "<EOR>") (by decide) _ 0 (by omega) hlt,
      show replaceAll (60 :: (str "eor" ++ [62])) (str "<EOR>")
        (60 :: (str "eor" ++ [62])) = str "<EOR>" from by decide]
  have hsplit : splitOnSeq (str "<EOH>") (tagStream r.fields ++ str "<EOR>") =
      [tagStream r.fields ++ str "<EOR>"] := by
    rw [show (str "<EOH>" : Chars) = 60 :: (str "EOH" ++ [62]) from by decide]
    exact split_safe (str "EOH") (by decide) (tagStream r.fields) 0 (by omega) hlt
      (str "<EOR>") (str "<EOR>") [] (by decide)
  have htok : tokenize (tagStream r.fields ++ str "<EOR>") =
      r.fields.map (fun kv => mkToken kv.1 kv.2) := by
    rw [tokenize_tagStream r.fields (str "<EOR>") h1 (by decide),
      show tokenize (str "<EOR>") = [] from by decide,
      List.append_nil]
  have htok0 : tokenize (tagStream r.fields) =
      r.fields.map (fun kv => mkToken kv.1 kv.2) := by
    have hh := tokenize_tagStream r.fields [] h1 (by decide)
    rw [List.append_nil] at hh
    rw [hh, tokenize_nil, List.append_nil]
  have htokb := mkTokens_bounded r.fields (goodFields_val r.fields h1)
  have hplt : parse_line_to_tokens (tagStream r.fields ++ str "<EOR>") =
      some (r.fields.map (fun kv => mkToken kv.1 kv.2)) := by
    rw [parse_line_eq_some _ (by rw [htok]; exact htokb), htok]
  have hplt0 : parse_line_to_tokens (tagStream r.fields) =
      some (r.fields.map (fun kv => mkToken kv.1 kv.2)) := by
    rw [parse_line_eq_some _ (by rw [htok0]; exact htokb), htok0]
  have hctm : create_token_map (r.fields.map (fun kv => mkToken kv.1 kv.2)) =
      some r.fields :=
    ctm_of_good r.fields (goodFields_val r.fields h1) h2
  have hbsplit : splitOnSeq (str "<EOR>") (tagStream r.fields ++ str "<EOR>") =
      [tagStream r.fields, []] := by
    rw [show (str "<EOR>" : Chars) = 60 :: (str "EOR" ++ [62]) from by decide]
    have hh := split_safe (str "EOR") (by decide) (tagStream r.fields) 0 (by omega) hlt
      (60 :: (str "EOR" ++ [62])) [] [[]] (by decide)
    simpa using hh
  have hrec1 : (parse_line_to_tokens (tagStream r.fields)).bind
      (fun ts => (create_token_map ts).map AdifRecord.mk) = some r := by
    rw [hplt0]
    show (create_token_map (r.fields.map (fun kv => mkToken kv.1 kv.2))).map
      AdifRecord.mk = some r
    rw [hctm]
    rfl
  have hrec2 : (parse_line_to_tokens ([] : Chars)).bind
      (fun ts => (create_token_map ts).map AdifRecord.mk) =
      some (AdifRecord.mk []) := by decide
  unfold parse_adif
  rw [hn, hsplit]
  show parseSegments (tagStream r.fields ++ str "<EOR>")
    (tagStream r.fields ++ str "<EOR>") = _
  unfold parseSegments
  rw [hplt]
  dsimp only
  rw [hctm]
  dsimp only
  rw [hbsplit]
  simp only [collectOption, hrec1, hrec2]

theorem parse_header_roundtrip (h : AdifHeader) (nowD : NDate) (nowT : NTime)
    (h1 : goodFields h.fields = true) (h2 : (h.fields.map Prod.fst).Nodup) :
    parse_adif (headerBanner nowD nowT ++
      joinSep [10] (h.fields.map (fun kv => tagChars kv.1 kv.2)) ++ [10] ++
      str "<EOH>") = some ⟨h, [⟨[]⟩]⟩ := by
  have hb60 := banner_no60 nowD nowT
  have hlt : ltOkSt (headerBanner nowD nowT ++
      (joinSep [10] (h.fields.map (fun kv => tagChars kv.1 kv.2)) ++ [10])) 0 = true := by
    rw [ltOk_skip _ hb60, ltOk_joined h.fields h1 [10]]
    decide
  have hassoc : headerBanner nowD nowT ++
      joinSep [10] (h.fields.map (fun kv => tagChars kv.1 kv.2)) ++ [10] ++
      str "<EOH>" =
      (headerBanner nowD nowT ++
        (joinSep [10] (h.fields.map (fun kv => tagChars kv.1 kv.2)) ++ [10])) ++
      str "<EOH>" := by
    simp [List.append_assoc]
  rw [hassoc]
  have hn : normalizeData ((headerBanner nowD nowT ++
      (joinSep [10] (h.fields.map (fun kv => tagChars kv.1 kv.2)) ++ [10])) ++
      str "<EOH>") =
      (headerBanner nowD nowT ++
        (joinSep [10] (h.fields.map (fun kv => tagChars kv.1 kv.2)) ++ [10])) ++
      str "<EOH>" := by
    unfold normalizeData
    rw [show (str "<eoh>" : Chars) = 60 :: (str "eoh" ++ [62]) from by decide,
      replace_safe (str "eoh") (str "<EOH>") (by decide) _ 0 (by omega) hlt,
      show replaceAll (60 :: (str "eoh" ++ [62])) (str "<EOH>") (str "<EOH>") =
        str "<EOH>" from by decide,
      show (str "<eor>" : Chars) = 60 :: (str "eor" ++ [62]) from by decide,
      replace_safe (str "eor") (str "<EOR>") (by decide) _ 0 (by omega) hlt,
      show replaceAll (60 :: (str "eor" ++ [62])) (str "<EOR>") (str "<EOH>") =
        str "<EOH>" from by decide]
  have hsplit : splitOnSeq (str "<EOH>")
      ((headerBanner nowD nowT ++
        (joinSep [10] (h.fields.map (fun kv => tagChars kv.1 kv.2)) ++ [10])) ++
        str "<EOH>") =
      [headerBanner nowD nowT ++
        (joinSep [10] (h.fields.map (fun kv => tagChars kv.1 kv.2)) ++ [10]), []] := by
    rw [show (str "<EOH>" : Chars) = 60 :: (str "EOH" ++ [62]) from by decide]
    have hh := split_safe (str "EOH") (by decide) _ 0 (by omega) hlt
      (60 :: (str "EOH" ++ [62])) [] [[]] (by decide)
    simpa using hh
  have htok : tokenize (headerBanner nowD nowT ++
      (joinSep [10] (h.fields.map (fun kv => tagChars kv.1 kv.2)) ++ [10])) =
      h.fields.map (fun kv => mkToken kv.1 kv.2) := by
    rw [tokenize_skip _ _ hb60, tokenize_joined h.fields h1]
  have hplt : parse_line_to_tokens (headerBanner nowD nowT ++
      (joinSep [10] (h.fields.map (fun kv => tagChars kv.1 kv.2)) ++ [10])) =
      some (h.fields.map (fun kv => mkToken kv.1 kv.2)) := by
    rw [parse_line_eq_some _ (by
        rw [htok]
        exact mkTokens_bounded h.fields (goodFields_val h.fields h1)), htok]
  have hctm : create_token_map (h.fields.map (fun kv => mkToken kv.1 kv.2)) =
      some h.fields :=
    ctm_of_good h.fields (goodFields_val h.fields h1) h2
  unfold parse_adif
  rw [hn, hsplit]
  show parseSegments (headerBanner nowD nowT ++
    (joinSep [10] (h.fields.map (fun kv => tagChars kv.1 kv.2)) ++ [10])) [] = _
  unfold parseSegments
  rw [hplt]
  dsimp only
  rw [hctm]
  dsimp only
  rw [splitOnSeq_nil _ (by decide)]
  rfl

/-- C1 (amended): for a record or header whose keys are nonempty
uppercase-letter/underscore strings, pairwise distinct, and whose values
are `goodVal` (ASCII `<`-free newline-free strings without trailing
whitespace and of representable byte length — at most `usize::MAX`, as
every real Rust string is — any boolean, dates with 1930 ≤ year ≤ 9999,
in-range times; numbers excluded), serialization succeeds, and parsing the serialized
text returns the container intact: the record comes back as the first
parsed record (the file also carries the record's fields as its header
and a trailing empty record, since the record text has no `<EOH>` and
ends with `<EOR>`), and the header comes back as the parsed file's
header (with a single empty record as body). -/
theorem adif_C1_round_trip (r : AdifRecord) (hh : AdifHeader)
    (nowD : NDate) (nowT : NTime)
    (hr1 : goodFields r.fields = true) (hr2 : (r.fields.map Prod.fst).Nodup)
    (hh1 : goodFields hh.fields = true) (hh2 : (hh.fields.map Prod.fst).Nodup) :
    (∃ txt, r.serialize = Except.ok txt ∧
      parse_adif txt = some ⟨⟨r.fields⟩, [r, ⟨[]⟩]⟩) ∧
    (∃ txt, hh.serializeAt nowD nowT = Except.ok txt ∧
      parse_adif txt = some ⟨hh, [⟨[]⟩]⟩) := by
  constructor
  · exact ⟨_, record_serialize_ok r hr1, parse_record_roundtrip r hr1 hr2⟩
  · exact ⟨_, header_serializeAt_ok hh nowD nowT hh1,
      parse_header_roundtrip hh nowD nowT hh1 hh2⟩

theorem adif_C1_round_trip_witness :
    (goodFields [(str "CALL", AdifType.Str (str "VA3ZZA")),
       (str "QSO_DATE", AdifType.Date ⟨2020, 2, 24⟩),
       (str "TIME_ON", AdifType.Time ⟨23, 2, 5⟩),
       (str "OK", AdifType.Boolean true)] = true) ∧
    (goodFields [(str "PROGRAMID", AdifType.Str (str "adif-rs"))] = true) ∧
    (∃ txt, (AdifRecord.mk [(str "CALL", AdifType.Str (str "VA3ZZA")),
       (str "QSO_DATE", AdifType.Date ⟨2020, 2, 24⟩),
       (str "TIME_ON", AdifType.Time ⟨23, 2, 5⟩),
       (str "OK", AdifType.Boolean true)]).serialize = Except.ok txt ∧
      parse_adif txt = some
        ⟨⟨[(str "CALL", AdifType.Str (str "VA3ZZA")),
           (str "QSO_DATE", AdifType.Date ⟨2020, 2, 24⟩),
           (str "TIME_ON", AdifType.Time ⟨23, 2, 5⟩),
           (str "OK", AdifType.Boolean true)]⟩,
         [⟨[(str "CALL", AdifType.Str (str "VA3ZZA")),
            (str "QSO_DATE", AdifType.Date ⟨2020, 2, 24⟩),
            (str "TIME_ON", AdifType.Time ⟨23, 2, 5⟩),
            (str "OK", AdifType.Boolean true)]⟩, ⟨[]⟩]⟩) ∧
    (∃ txt, (AdifHeader.mk [(str "PROGRAMID", AdifType.Str (str "adif-rs"))]).serializeAt
        ⟨2021, 6, 1⟩ ⟨12, 0, 0⟩ = Except.ok txt ∧
      parse_adif txt = some
        ⟨⟨[(str "PROGRAMID", AdifType.Str (str "adif-rs"))]⟩, [⟨[]⟩]⟩) :=
  ⟨by decide, by decide,
   (adif_C1_round_trip
     ⟨[(str "CALL", AdifType.Str (str "VA3ZZA")),
       (str "QSO_DATE", AdifType.Date ⟨2020, 2, 24⟩),
       (str "TIME_ON", AdifType.Time ⟨23, 2, 5⟩),
       (str "OK", AdifType.Boolean true)]⟩
     ⟨[(str "PROGRAMID", AdifType.Str (str "adif-rs"))]⟩
     ⟨2021, 6, 1⟩ ⟨12, 0, 0⟩ (by decide) (by decide) (by decide) (by decide)).1,
   (adif_C1_round_trip
     ⟨[(str "CALL", AdifType.Str (str "VA3ZZA")),
       (str "QSO_DATE", AdifType.Date ⟨2020, 2, 24⟩),
       (str "TIME_ON", AdifType.Time ⟨23, 2, 5⟩),
       (str "OK", AdifType.Boolean true)]⟩
     ⟨[(str "PROGRAMID", AdifType.Str (str "adif-rs"))]⟩
     ⟨2021, 6, 1⟩ ⟨12, 0, 0⟩ (by decide) (by decide) (by decide) (by decide)).2⟩
